import Mathlib

/-!
# Wire-harness analyzer: a shallow embedding

This file embeds the `HarnessAnalyzer` of this repository (the
hierarchy-aware implementation appended to `gui.py` as "harness new.py",
together with the simpler `harness_analyzer.py` where the two differ) and
proves properties of the embedded functions.

## Representation conventions

* The `networkx.Graph` is embedded as insertion-ordered lists of nodes and
  edges.  Node attributes used by the algorithms are the name and the
  `type` string; the layout `position` and the `parent` attribute are only
  read by the visualization code and are not embedded.  The derived
  `downstream_junctions` annotation is written by
  `_compute_junction_hierarchy` but never read by any algorithm, so it is
  not embedded either.
* Every diameter `d` manipulated by the source has the form
  `d = 2*sqrt(q)` for a rational `q ≥ 0`: the source converts between
  diameters and areas only through `area = (d/2)**2 * pi` and
  `d = 2*sqrt(area/pi)`, and the leading `pi` of every area cancels in
  every diameter it ever produces.  We therefore store, wherever the
  source stores a diameter `d`, the rational `q = (d/2)^2` (the
  cross-sectional area in units of `pi` mm^2), and recover the physical
  diameter through `realDiam q = 2 * Real.sqrt q`.  All of the source's
  arithmetic on diameters/areas is mirrored exactly under this encoding:
  summing areas is summing the `q`s, and the space-utilization ratio
  `base_area / total_area` is the exact rational `q_base / q_total`.
* Python `dict`s keyed by directed node pairs become association lists
  with insert-or-replace-in-place update (`updMap`), matching `dict`
  insertion-order semantics.
* Python exceptions that escape a function are modelled with `Except`
  (for example the uncaught `networkx.NodeNotFound` in
  `find_optimal_path`, the `KeyError` of a missing `"gauge"`/`"length"`
  attribute, and the `ValueError` of `max()` on an empty sequence).
-/

deriving instance DecidableEq for Except

namespace Harness

/-- Edge attributes of a wire: `wire_type`, `gauge`, `length`, `signals`.
`gauge` and `signals` are `Option`s because the source reads them with
`data.get(...)` defaults in some places and with raising `[...]` access in
others; `length` is likewise optional at access sites that raise. -/
structure EdgeData where
  wire_type : Option String
  gauge : Option Int
  len : Option ℚ
  signals : Option (List String)
deriving DecidableEq, Repr

/-- An undirected attributed graph in insertion order: node list (name and
optional `type` attribute) and edge list (endpoints plus data, in the
orientation in which the edge was added). -/
structure Graph where
  nodes : List (String × Option String)
  edges : List (String × String × EdgeData)
deriving DecidableEq, Repr

/-- Node names in insertion order. -/
def nodeNames (G : Graph) : List String := G.nodes.map (·.1)

/-- `networkx` adjacency: the neighbors of `n` in edge-insertion order. -/
def neighbors (G : Graph) (n : String) : List String :=
  G.edges.filterMap fun e =>
    if e.1 = n then some e.2.1 else if e.2.1 = n then some e.1 else none

/-- Whether a stored edge joins `u` and `v` (in either orientation). -/
def edgeMatches (u v : String) (e : String × String × EdgeData) : Bool :=
  (e.1 = u && e.2.1 = v) || (e.1 = v && e.2.1 = u)

/-- `G.has_edge(u, v)` on the undirected graph. -/
def has_edge (G : Graph) (u v : String) : Bool :=
  G.edges.any (edgeMatches u v)

/-- `G[u][v]`: the data of the (unique, by well-formedness) edge between
`u` and `v`, in either orientation. -/
def findEdge (G : Graph) (u v : String) : Option EdgeData :=
  G.edges.findSome? fun e => if edgeMatches u v e then some e.2.2 else none

/-- Two directed pairs name the same undirected edge. -/
def sameEdge (a b : String × String) : Prop :=
  (a.1 = b.1 ∧ a.2 = b.2) ∨ (a.1 = b.2 ∧ a.2 = b.1)

instance : DecidablePred fun p : (String × String) × String × String => sameEdge p.1 p.2 := by
  intro p
  unfold sameEdge
  infer_instance

instance (a b : String × String) : Decidable (sameEdge a b) := by
  unfold sameEdge
  infer_instance

/-- Well-formedness of a harness graph, as assumed by the data model of
the spec: node names are distinct, every edge joins two distinct existing
nodes, at most one edge joins a given pair of nodes, and wire lengths,
when present, are nonnegative. -/
def WF (G : Graph) : Prop :=
  (nodeNames G).Nodup ∧
  (∀ e ∈ G.edges, e.1 ∈ nodeNames G ∧ e.2.1 ∈ nodeNames G ∧ e.1 ≠ e.2.1 ∧
    ∀ l ∈ e.2.2.len, 0 ≤ l) ∧
  (G.edges.map fun e => (e.1, e.2.1)).Pairwise fun a b => ¬ sameEdge a b

instance (G : Graph) : Decidable (WF G) := by
  unfold WF
  infer_instance

/-- `set.add`: append if absent (we keep Python's visited set as a list in
insertion order; only membership is ever queried). -/
def setAdd (l : List String) (x : String) : List String :=
  if x ∈ l then l else l ++ [x]

/-- The recursive `dfs` inside `get_downstream_edges`, with explicit fuel
(the Python recursion is bounded by the number of nodes; we prove below
that fuel `(nodeNames G).length` never runs out on well-formed graphs).
`none` models fuel exhaustion only.  State is the visited set and the
accumulated `downstream_edges` list. -/
def dfs (G : Graph) : Nat → String → Option String → List String →
    List (String × String) → Option (List String × List (String × String))
  | 0, _, _, _, _ => none
  | fuel + 1, current, parent, visited, acc =>
      (neighbors G current).foldl
        (fun st n =>
          match st with
          | none => none
          | some (vis, ac) =>
              if some n = parent then some (vis, ac)
              else if n ∈ vis then some (vis, ac)
              else dfs G fuel n (some current) vis (ac ++ [(current, n)]))
        (some (setAdd visited current, acc))

/-- `get_downstream_edges(node)`: DFS edge enumeration from `node` with a
globally tracked visited set and parent exclusion.  The `[]` fallback is
unreachable on well-formed graphs (proved below). -/
def get_downstream_edges (G : Graph) (node : String) : List (String × String) :=
  match dfs G (nodeNames G).length node none [] [] with
  | some (_, es) => es
  | none => []

/-! ## Bundle diameter estimation (`estimate_bundle_diameter`) -/

/-- The AWG-to-diameter table `gauge_to_diameter` with its `.get(gauge, 0.8)`
default, in millimetres. -/
def gauge_to_diameter (g : Int) : ℚ :=
  if g = 16 then 129/100
  else if g = 18 then 102/100
  else if g = 20 then 81/100
  else if g = 22 then 64/100
  else if g = 24 then 51/100
  else 8/10

/-- `len(data.get("signals", [1]))`: the signal count of an edge. -/
def sigCount (d : EdgeData) : ℕ :=
  match d.signals with
  | some l => l.length
  | none => 1

/-- Python `x**2` on rationals. -/
def sq (x : ℚ) : ℚ := x * x

/-- The base `q`-value of one segment:
`segment_area = num_signals * (wire_diameter/2)**2 * pi` and the stored
base diameter is `2*sqrt(segment_area/pi)`, so the stored `q` is
`num_signals * (wire_diameter/2)^2`.  Uses `data.get("gauge", 20)`. -/
def base_segment_q (d : EdgeData) : ℚ :=
  (sigCount d) * sq (gauge_to_diameter (d.gauge.getD 20) / 2)

/-- Association map from directed edge keys to `q`-values (encoding the
Python dicts `segment_diameters` / `space_utilization`). -/
abbrev QMap := List ((String × String) × ℚ)

/-- Python `dict` lookup. -/
def lookupQ (m : QMap) (k : String × String) : Option ℚ :=
  (m.find? fun kv => kv.1 = k).map (·.2)

/-- Python `dict` assignment: replace in place if present, append if new. -/
def updMap : QMap → String × String → ℚ → QMap
  | [], k, q => [(k, q)]
  | kv :: rest, k, q => if kv.1 = k then (k, q) :: rest else kv :: updMap rest k q

/-- The initial `segment_diameters` dict: one entry per edge, keyed in
stored orientation, holding the base segment `q`. -/
def baseSegments (G : Graph) : QMap :=
  G.edges.map fun e => ((e.1, e.2.1), base_segment_q e.2.2)

/-- The junction/sub-junction node names, in node insertion order. -/
def junctionFilter (G : Graph) : List String :=
  G.nodes.filterMap fun nd =>
    if nd.2 = some "junction" ∨ nd.2 = some "sub_junction" then some nd.1 else none

/-- Stable ascending insertion by key (`insert` helper of `sortByKey`). -/
def insertByKey (key : String → ℕ) (x : String) : List String → List String
  | [] => [x]
  | y :: ys => if key x ≤ key y then x :: y :: ys else y :: insertByKey key x ys

/-- Stable ascending sort by key: extensionally equal to Python's
`sorted(..., key=..., reverse=False)` (both are the stable ascending
ordering). -/
def sortByKey (key : String → ℕ) : List String → List String
  | [] => []
  | x :: xs => insertByKey key x (sortByKey key xs)

/-- `sorted(junction_nodes, key=lambda j: len(self.get_downstream_edges(j)))`. -/
def sortedJunctions (G : Graph) : List String :=
  sortByKey (fun j => (get_downstream_edges G j).length) (junctionFilter G)

/-- `total_downstream_area` of a junction, in `q`-units: each downstream
edge whose DFS-oriented key `(u, v)` is present in `segment_diameters`
contributes its current `q`; absent keys are skipped. -/
def downTotal (sd : QMap) : List (String × String) → ℚ
  | [] => 0
  | e :: rest =>
      (match lookupQ sd e with
       | some q => q
       | none => 0) + downTotal sd rest

/-- The `incoming_edges` list of a junction: the edges of the graph
touching it, re-keyed as `(other, junction)` when stored as
`(junction, other)` and as `(junction, other)` when stored as
`(other, junction)`. -/
def incomingEdges (G : Graph) (junction : String) : List (String × String) :=
  G.edges.filterMap fun e =>
    if e.1 = junction then some (e.2.1, junction)
    else if e.2.1 = junction then some (junction, e.1)
    else none

/-- The `is_downstream` test of an incoming edge against the downstream
edge list (matches either orientation). -/
def isDownstream (de : List (String × String)) (e : String × String) : Bool :=
  de.any fun d => (e.1 = d.1 && e.2 = d.2) || (e.1 = d.2 && e.2 = d.1)

/-- The body of the `for edge in incoming_edges` loop: skip downstream
edges; otherwise read the current `q` (trying the re-keyed orientation
first, then the reverse, then `0`), add the downstream total, and if the
total is positive store the new `q` and the space utilization under both
directed keys. -/
def stepEdge (de : List (String × String)) (downQ : ℚ) (st : QMap × QMap)
    (e : String × String) : QMap × QMap :=
  if isDownstream de e then st
  else
    let baseQ := (lookupQ st.1 e).getD ((lookupQ st.1 (e.2, e.1)).getD 0)
    let totalQ := baseQ + downQ
    if 0 < totalQ then
      (updMap (updMap st.1 e totalQ) (e.2, e.1) totalQ,
       updMap (updMap st.2 e (baseQ / totalQ * 100)) (e.2, e.1) (baseQ / totalQ * 100))
    else st

/-- Processing of one junction: compute its downstream edges and their
total area, then fold the incoming-edge loop over the state. -/
def processJunction (G : Graph) (st : QMap × QMap) (junction : String) :
    QMap × QMap :=
  let de := get_downstream_edges G junction
  let downQ := downTotal st.1 de
  (incomingEdges G junction).foldl (stepEdge de downQ) st

/-- The junction loop of the whole-graph hierarchical mode: base
segments, then `processJunction` folded over the junctions in
leaf-to-root (stable ascending downstream-count) order. -/
def hierRaw (G : Graph) : QMap × QMap :=
  (sortedJunctions G).foldl (processJunction G) (baseSegments G, [])

/-- The whole-graph hierarchical mode: the junction loop followed by the
default fill of `space_utilization` with `100.0` per `segment_diameters`
key when no utilization was recorded at all. -/
def hierPair (G : Graph) : QMap × QMap :=
  ((hierRaw G).1,
   if (hierRaw G).2 = [] then (hierRaw G).1.map (fun kv => (kv.1, (100 : ℚ)))
   else (hierRaw G).2)

/-- The non-hierarchical whole-graph mode: independent per-segment base
`q`s (same formula as the base pass of the hierarchical mode). -/
def simpleSegments (G : Graph) : QMap := baseSegments G

/-- One consecutive pair of the path-mode loop: a pair that is an edge of
the graph contributes `(gauge_to_diameter(gauge)/2)^2` (`pi` cancelled);
non-edges are skipped.  Accessing `["gauge"]` on an existing edge without
a `gauge` attribute raises a `KeyError`, modelled as `none`. -/
def pathStep (G : Graph) (acc : Option ℚ) (e : String × String) : Option ℚ :=
  match acc with
  | none => none
  | some a =>
      if has_edge G e.1 e.2 then
        match (findEdge G e.1 e.2).bind (·.gauge) with
        | some g => some (a + sq (gauge_to_diameter g / 2))
        | none => none
      else some a

/-- Path mode of `estimate_bundle_diameter`: fold `pathStep` over the
consecutive node pairs of the path. -/
def pathModeQ (G : Graph) (p : List String) : Option ℚ :=
  (p.zip p.tail).foldl (pathStep G) (some 0)

/-- Result of `estimate_bundle_diameter`: a path-mode bundle (`q`-value;
the source returns the diameter `2*sqrt(q)`), the hierarchical pair of
dicts, or the plain per-segment dict. -/
inductive BDResult where
  | pathBundle (q : ℚ)
  | hier (sd su : QMap)
  | simple (sd : QMap)
deriving DecidableEq, Repr

/-- Python truthiness of the `path` argument (`if path:`). -/
def pathTruthy : Option (List String) → Bool
  | none => false
  | some [] => false
  | some (_ :: _) => true

/-- `estimate_bundle_diameter(path, consider_hierarchy)` of the
hierarchy-aware implementation.  An escaping `KeyError` (missing `gauge`
on a path edge) is `Except.error ()`. -/
def estimate_bundle_diameter (G : Graph) (path : Option (List String))
    (consider_hierarchy : Bool) : Except Unit BDResult :=
  if pathTruthy path then
    match pathModeQ G (path.getD []) with
    | some q => .ok (.pathBundle q)
    | none => .error ()
  else if consider_hierarchy then
    .ok (.hier (hierPair G).1 (hierPair G).2)
  else
    .ok (.simple (simpleSegments G))

/-- The physical diameter encoded by a stored `q`-value:
`2 * sqrt(area/pi)` with `area = q * pi`. -/
noncomputable def realDiam (q : ℚ) : ℝ := 2 * Real.sqrt (q : ℝ)

/-! ## Other analyzer operations -/

/-- `calculate_total_length`: `sum(data["length"] for ...)`; the raising
`["length"]` access is modelled with `Option` (an empty edge list sums to
`some 0`). -/
def calculate_total_length (G : Graph) : Option ℚ :=
  G.edges.foldl
    (fun acc e =>
      match acc, e.2.2.len with
      | some a, some l => some (a + l)
      | _, _ => none)
    (some 0)

/-! ### `find_optimal_path`

The source delegates to `networkx.dijkstra_path` /
`dijkstra_path_length` and catches only `nx.NetworkXNoPath`.  We model
the NetworkX shortest-path semantics extensionally: its weight function
for a string attribute is `data.get("length", 1)`; a missing *source*
node raises `nx.NodeNotFound`, which `find_optimal_path` does **not**
catch; a missing target or an unreachable target raises
`nx.NetworkXNoPath`, which is caught and turned into `(None, inf)`.
`nxDijkstra` computes a minimum-weight simple path by exhaustive
enumeration (below we prove the returned weight is minimal over **all**
walks, which is the defining property of Dijkstra's algorithm; ties are
broken deterministically, and every claim evaluated concretely has a
unique optimum). -/

/-- NetworkX edge weight for `weight="length"`: `data.get("length", 1)`
(only ever used on actual edges; `0` on a non-edge). -/
def edgeWeight (G : Graph) (u v : String) : ℚ :=
  match findEdge G u v with
  | some d => d.len.getD 1
  | none => 0

/-- Total weight of a node sequence (sum over consecutive pairs). -/
def walkWeight (G : Graph) : List String → ℚ
  | [] => 0
  | [_] => 0
  | u :: v :: rest => edgeWeight G u v + walkWeight G (v :: rest)

/-- A node sequence is a walk from `s` to `t` in `G`. -/
def IsWalk (G : Graph) (p : List String) (s t : String) : Prop :=
  p.head? = some s ∧ p.getLast? = some t ∧
    List.Chain' (fun u v => has_edge G u v = true) p

/-- All simple paths from `current` to `target` avoiding `visited`, by
fueled DFS enumeration (fuel bounds the path length). -/
def pathsFrom (G : Graph) : Nat → String → String → List String →
    List (List String)
  | 0, _, _, _ => []
  | fuel + 1, current, target, visited =>
      if current = target then [[current]]
      else
        ((neighbors G current).filter fun n => ¬ n ∈ visited ++ [current]).flatMap
          fun n => (pathsFrom G fuel n target (visited ++ [current])).map
            fun p => current :: p

/-- Model of `nx.dijkstra_path` + `nx.dijkstra_path_length`: a
minimum-weight simple path and its weight, or `none` when the target is
unreachable (or absent). -/
def nxDijkstra (G : Graph) (s t : String) : Option (List String × ℚ) :=
  (pathsFrom G (nodeNames G).length s t []).foldl
    (fun best p =>
      match best with
      | none => some (p, walkWeight G p)
      | some (_, bw) =>
          if walkWeight G p < bw then some (p, walkWeight G p) else best)
    none

/-- Python `float` results of the path search: a finite weight or
`float('inf')`. -/
inductive PyFloat where
  | fin (q : ℚ)
  | inf
deriving DecidableEq, Repr

/-- `find_optimal_path(source, target)`: `Except.error ()` models the
uncaught `nx.NodeNotFound` raised when the source node is not in the
graph; otherwise the caught `nx.NetworkXNoPath` yields
`(None, float('inf'))`. -/
def find_optimal_path (G : Graph) (source target : String) :
    Except Unit (Option (List String) × PyFloat) :=
  if source ∈ nodeNames G then
    match nxDijkstra G source target with
    | some (p, w) => .ok (some p, .fin w)
    | none => .ok (none, .inf)
  else .error ()

/-! ### `estimate_installation_complexity` -/

/-- `np.mean` over the reals (guarded against `[]` at every call site of
the hierarchy-aware implementation). -/
noncomputable def npMeanR (l : List ℝ) : ℝ := l.sum / l.length

/-- Number of junction/sub-junction nodes (the hierarchy-aware count). -/
def junctionCount (G : Graph) : ℕ := (junctionFilter G).length

/-- `avg_diameter = np.mean(list(diameters.values())) if diameters else 0`
over the hierarchical diameter dict. -/
noncomputable def avgHierDiameter (G : Graph) : ℝ :=
  let ds := (hierPair G).1.map fun kv => realDiam kv.2
  if ds = [] then 0 else npMeanR ds

/-- Whole-graph installation complexity of the hierarchy-aware
implementation:
`min(10, max(1, total_length * avg_diameter * 0.5 + num_junctions * 1.5))`.
`none` propagates the raising `["length"]` access of
`calculate_total_length`. -/
noncomputable def complexityWhole (G : Graph) : Option ℝ :=
  (calculate_total_length G).map fun (total : ℚ) =>
    min 10 (max 1 ((total : ℝ) * avgHierDiameter G * (5/10) +
      (junctionCount G : ℝ) * (15/10)))

/-- `path_length`: `sum(G[path[i]][path[i+1]]["length"] ...)`, raising
(`none`) when a consecutive pair is not an edge or lacks `length`. -/
def path_length (G : Graph) (p : List String) : Option ℚ :=
  (p.zip p.tail).foldl
    (fun acc e =>
      match acc, (findEdge G e.1 e.2).bind (·.len) with
      | some a, some l => some (a + l)
      | _, _ => none)
    (some 0)

/-- Path-mode installation complexity:
`min(10, max(1, path_length * bundle_diameter * 0.8))`. -/
noncomputable def complexityPath (G : Graph) (p : List String) : Option ℝ :=
  (path_length G p).bind fun (len : ℚ) =>
    (pathModeQ G p).map fun (q : ℚ) =>
      min 10 (max 1 ((len : ℝ) * realDiam q * (8/10)))

/-- `estimate_installation_complexity(path=None)` (hierarchy-aware
implementation; the Python `if not path:` treats `None` and `[]` as the
whole-graph case). -/
noncomputable def estimate_installation_complexity (G : Graph)
    (path : Option (List String)) : Option ℝ :=
  if pathTruthy path then complexityPath G (path.getD [])
  else complexityWhole G

/-- Whole-graph complexity of the simple implementation
(`harness_analyzer.py`): per-segment (non-hierarchical) diameters and the
`type == "junction"`-only count.  Its `np.mean` is unguarded: on an empty
diameter dict it yields `NaN` (propagated by Python to a final clamp of
`1.0`); IEEE `NaN` is outside this embedding, so that case is `none`
here, and no theorem below evaluates it. -/
noncomputable def complexityWholeHa (G : Graph) : Option ℝ :=
  (calculate_total_length G).bind fun (total : ℚ) =>
    match (simpleSegments G).map (fun kv => realDiam kv.2) with
    | [] => none
    | ds => some (min 10 (max 1 ((total : ℝ) * npMeanR ds * (5/10) +
        ((G.nodes.filter fun nd => nd.2 = some "junction").length : ℝ) * (15/10))))

/-! ### Rounding and reports -/

/-- Python `round` to an integer: round-half-to-even. -/
def rheZ (x : ℚ) : ℤ :=
  if x - ⌊x⌋ < 1/2 then ⌊x⌋
  else if 1/2 < x - ⌊x⌋ then ⌊x⌋ + 1
  else if 2 ∣ ⌊x⌋ then ⌊x⌋ else ⌊x⌋ + 1

/-- Python `round(x, n)` on rationals. -/
def roundQ (n : ℕ) (x : ℚ) : ℚ := (rheZ (x * 10 ^ n) : ℚ) / 10 ^ n

/-- Python `round` to an integer on reals (round-half-to-even). -/
noncomputable def rheZR (x : ℝ) : ℤ :=
  if x - ⌊x⌋ < 1/2 then ⌊x⌋
  else if 1/2 < x - ⌊x⌋ then ⌊x⌋ + 1
  else if 2 ∣ ⌊x⌋ then ⌊x⌋ else ⌊x⌋ + 1

/-- Python `round(x, n)` on reals. -/
noncomputable def roundR (n : ℕ) (x : ℝ) : ℝ := (rheZR (x * 10 ^ n) : ℝ) / 10 ^ n

/-- `max` of a list of reals (call sites guard against `[]`). -/
def listMaxR : List ℝ → ℝ
  | [] => 0
  | h :: t => t.foldl max h

/-- `min` of a list of rationals (call sites guard against `[]`). -/
def listMinQ : List ℚ → ℚ
  | [] => 0
  | h :: t => t.foldl min h

/-- `np.mean` of a list of rationals (call sites guard against `[]`). -/
def npMeanQ (l : List ℚ) : ℚ := l.sum / l.length

/-- The report dict of the hierarchy-aware `generate_report`
(`include_utilization=True`, the default; the `False` branch of that
implementation crashes on a tuple and is not modelled). -/
structure Report where
  totalComponents : ℕ
  totalConnections : ℕ
  numJunctions : ℕ
  totalWireLength : ℚ
  avgBundleDiameter : ℝ
  maxBundleDiameter : ℝ
  installationComplexity : ℝ
  avgSpaceUtilization : ℚ
  minSpaceUtilization : ℚ

/-- `generate_report()` of the hierarchy-aware implementation: guarded
averages/maxima default to `0` on empty dicts; values rounded with
Python `round`.  `none` models the raising `["length"]` access. -/
noncomputable def generate_report (G : Graph) : Option Report :=
  (calculate_total_length G).bind fun (total : ℚ) =>
    let sd := (hierPair G).1
    let su := (hierPair G).2
    let ds := sd.map fun kv => realDiam kv.2
    let avg : ℝ := if ds = [] then 0 else npMeanR ds
    let maxd : ℝ := if ds = [] then 0 else listMaxR ds
    let us := su.map (·.2)
    let avgu : ℚ := if us = [] then 0 else npMeanQ us
    let minu : ℚ := if us = [] then 0 else listMinQ us
    (complexityWhole G).map fun c =>
      { totalComponents := G.nodes.length
        totalConnections := G.edges.length
        numJunctions := junctionCount G
        totalWireLength := roundQ 2 total
        avgBundleDiameter := roundR 2 avg
        maxBundleDiameter := roundR 2 maxd
        installationComplexity := roundR 1 c
        avgSpaceUtilization := roundQ 1 avgu
        minSpaceUtilization := roundQ 1 minu }

/-- The report dict of the simple implementation
(`harness_analyzer.py`). -/
structure ReportHa where
  totalComponents : ℕ
  totalConnections : ℕ
  totalWireLength : ℚ
  avgBundleDiameter : ℝ
  maxBundleDiameter : ℝ
  installationComplexity : ℝ

/-- `generate_report` of the simple implementation: **no** emptiness
guards, so on a graph with no edges `max(bundle_diameters.values())`
raises `ValueError` (`Except.error ()`); the raising `["length"]` access
is the same error model. -/
noncomputable def generate_report_ha (G : Graph) : Except Unit ReportHa :=
  match calculate_total_length G with
  | none => .error ()
  | some total =>
      match (simpleSegments G).map (fun kv => realDiam kv.2) with
      | [] => .error ()
      | ds =>
          match complexityWholeHa G with
          | none => .error ()
          | some c =>
              .ok { totalComponents := G.nodes.length
                    totalConnections := G.edges.length
                    totalWireLength := roundQ 2 total
                    avgBundleDiameter := roundR 2 (npMeanR ds)
                    maxBundleDiameter := roundR 2 (listMaxR ds)
                    installationComplexity := roundR 1 c }

/-! ## Concrete graphs -/

/-- `load_sample_data` of `harness_analyzer.py`: the 7-node / 6-edge
sample harness (positions are visualization-only and not embedded). -/
def load_sample_data : Graph :=
  { nodes := [("ECU", some "controller"), ("Sensor1", some "sensor"),
              ("Sensor2", some "sensor"), ("Actuator1", some "actuator"),
              ("Actuator2", some "actuator"), ("Junction1", some "junction"),
              ("Junction2", some "junction")]
    edges := [("ECU", "Junction1",
                ⟨some "power", some 18, some (5/10), some ["CAN_H", "CAN_L"]⟩),
              ("Junction1", "Sensor1",
                ⟨some "signal", some 22, some (12/10), some ["Analog"]⟩),
              ("Junction1", "Junction2",
                ⟨some "power", some 20, some 2, some ["CAN_H", "CAN_L"]⟩),
              ("Junction2", "Sensor2",
                ⟨some "signal", some 22, some 1, some ["Digital"]⟩),
              ("Junction2", "Actuator1",
                ⟨some "power", some 16, some (15/10), some ["PWM"]⟩),
              ("Junction2", "Actuator2",
                ⟨some "power", some 16, some (21/10), some ["PWM"]⟩)] }

/-- The empty graph. -/
def emptyGraph : Graph := { nodes := [], edges := [] }

/-- A 3-cycle through a junction whose edge list stores the edge
`a--j` in the orientation `("a", "j")`: the DFS from `j` reports the
downstream edge `("j", "a")`, which is then absent from
`segment_diameters`' keys. -/
def triJ : Graph :=
  { nodes := [("j", some "junction"), ("a", none), ("b", none)]
    edges := [("a", "j", ⟨some "power", some 16, some 1, some ["PWM"]⟩),
              ("a", "b", ⟨some "signal", some 18, some 2, some ["S1"]⟩),
              ("b", "j", ⟨some "signal", some 20, some 3, some ["S2"]⟩)] }

/-- A junction `j` on a 3-cycle whose cycle-closing edge `b--j` carries
an empty `signals` list (zero base area), plus a pendant edge `j--c`. -/
def triJ0 : Graph :=
  { nodes := [("j", some "junction"), ("a", none), ("b", none), ("c", none)]
    edges := [("j", "a", ⟨some "power", some 16, some 1, some ["PWM"]⟩),
              ("a", "b", ⟨some "signal", some 18, some 2, some ["S1"]⟩),
              ("b", "j", ⟨some "signal", some 20, some 3, some []⟩),
              ("j", "c", ⟨some "signal", some 22, some 1, some ["S3"]⟩)] }

/-! ## Auxiliary notions used only in statements and proofs -/

/-- Erase the `signals` attribute of every edge (used to state that path
mode ignores signal counts). -/
def stripSignals (G : Graph) : Graph :=
  { nodes := G.nodes
    edges := G.edges.map fun e =>
      (e.1, e.2.1, { e.2.2 with signals := none }) }

/-- The base segment `q` of the undirected edge between the two
components of a key (`0` if there is no such edge): the "pre-aggregation
base diameter computed from gauge and signal count alone" is
`realDiam (baseQU G k)`. -/
def baseQU (G : Graph) (k : String × String) : ℚ :=
  match findEdge G k.1 k.2 with
  | some d => base_segment_q d
  | none => 0

/-- Discriminator: did `estimate_bundle_diameter` return the whole-graph
hierarchical pair of dicts? -/
def isHier : Except Unit BDResult → Bool
  | .ok (.hier _ _) => true
  | _ => false

/-- Reachability along edges of the harness graph. -/
inductive Reaches (G : Graph) : String → String → Prop
  | refl (a : String) : Reaches G a a
  | tail {a b c : String} : Reaches G a b → c ∈ neighbors G b → Reaches G a c

/-- The graph is connected (every node reaches every node). -/
def Connected (G : Graph) : Prop :=
  ∀ a ∈ nodeNames G, ∀ b ∈ nodeNames G, Reaches G a b

/-- One step of the `dfs` neighbor loop, named for the proofs below
(definitionally the function folded inside `dfs`). -/
def dfsStep (G : Graph) (fuel : Nat) (current : String)
    (parent : Option String)
    (st : Option (List String × List (String × String))) (n : String) :
    Option (List String × List (String × String)) :=
  match st with
  | none => none
  | some (vis, ac) =>
      if some n = parent then some (vis, ac)
      else if n ∈ vis then some (vis, ac)
      else dfs G fuel n (some current) vis (ac ++ [(current, n)])

/-- Specification-oriented reformulation of the `dfs` neighbor loop as a
list recursion (proved equal to the fold below). -/
def dfsLoop (G : Graph) (fuel : Nat) (current : String)
    (parent : Option String) :
    List String → List String × List (String × String) →
    Option (List String × List (String × String))
  | [], st => some st
  | n :: rest, (vis, ac) =>
      if some n = parent then dfsLoop G fuel current parent rest (vis, ac)
      else if n ∈ vis then dfsLoop G fuel current parent rest (vis, ac)
      else
        match dfs G fuel n (some current) vis (ac ++ [(current, n)]) with
        | none => none
        | some st2 => dfsLoop G fuel current parent rest st2

/-- `Grows s E`: the edge sequence `E` always leaves from an
already-known node and appends its (fresh) target to the known set —
the shape of the edge list produced by the DFS. -/
inductive Grows : List String → List (String × String) → Prop
  | nil (s : List String) : Grows s []
  | cons {s : List String} {e : String × String}
      {E : List (String × String)} :
      e.1 ∈ s → Grows (s ++ [e.2]) E → Grows s (e :: E)

/-- The structural description of a successful `dfs` call at a given
fuel: the new edges extend the accumulator, the visited list grows by
`current` followed by the edge targets in order, the edge list `Grows`
out of the visited set, every edge joins adjacent nodes reachable from
`current`, distinctness of the visited list is preserved, and every
newly visited node has all its neighbors visited. -/
def DfsSpec (G : Graph) (fuel : Nat) : Prop :=
  ∀ current parent visited acc vis' acc',
    dfs G fuel current parent visited acc = some (vis', acc') →
    ¬ current ∈ visited →
    (parent = none ∨ ∃ p, parent = some p ∧ p ∈ visited) →
    ∃ E, acc' = acc ++ E ∧
      vis' = visited ++ current :: E.map (fun e => e.2) ∧
      Grows (visited ++ [current]) E ∧
      (∀ e ∈ E, e.2 ∈ neighbors G e.1) ∧
      (∀ e ∈ E, Reaches G current e.1 ∧ Reaches G current e.2) ∧
      (visited.Nodup → vis'.Nodup) ∧
      (∀ x ∈ vis', ¬ x ∈ visited → ∀ nb ∈ neighbors G x, nb ∈ vis')

/-- Fuel sufficiency of a `dfs` call at a given fuel: when the visited
set is a distinct list of nodes not containing the (existing) start node
and the fuel covers the remaining node budget, the traversal cannot run
out of fuel. -/
def DfsSucc (G : Graph) (fuel : Nat) : Prop :=
  ∀ current parent visited acc,
    current ∈ nodeNames G →
    ¬ current ∈ visited →
    (∀ x ∈ visited, x ∈ nodeNames G) →
    visited.Nodup →
    (nodeNames G).length ≤ fuel + visited.length →
    ∃ res, dfs G fuel current parent visited acc = some res

/-- The fold body of `nxDijkstra`, named for the proofs below
(extensionally the function folded inside it). -/
def dijkstraStep (G : Graph) (best : Option (List String × ℚ))
    (p : List String) : Option (List String × ℚ) :=
  match best with
  | none => some (p, walkWeight G p)
  | some (bp, bw) =>
      if walkWeight G p < bw then some (p, walkWeight G p) else some (bp, bw)

/-! # Theorems -/

/-! ## C4: the sample-harness end-to-end values -/

/-- Claim C4, counterexample: on the sample harness the optimal
ECU→Actuator2 path is found, but its total weight is `4.6`
(`0.5 + 2.0 + 2.1`), not the claimed `4.5`. -/
theorem c4_counterexample :
    find_optimal_path load_sample_data "ECU" "Actuator2" =
      .ok (some ["ECU", "Junction1", "Junction2", "Actuator2"], .fin (46/10)) ∧
    ((46 : ℚ)/10 ≠ 45/10) := by
  decide!

/-- Claim C4 (amended): on the sample 7-node/6-edge harness,
`calculate_total_length` returns exactly `8.3` and
`find_optimal_path("ECU", "Actuator2")` returns the node sequence
`[ECU, Junction1, Junction2, Actuator2]` with total weight `4.6`. -/
theorem c4_sample_values :
    calculate_total_length load_sample_data = some (83/10) ∧
    find_optimal_path load_sample_data "ECU" "Actuator2" =
      .ok (some ["ECU", "Junction1", "Junction2", "Actuator2"], .fin (46/10)) := by
  decide!

/-! ## C10: path mode of `estimate_bundle_diameter` -/

theorem lookupQ_nil (k : String × String) : lookupQ [] k = none := rfl

theorem edgeMatches_stripped (u v : String) (e : String × String × EdgeData) :
    edgeMatches u v (e.1, e.2.1, { e.2.2 with signals := none }) =
      edgeMatches u v e := rfl

theorem has_edge_stripSignals (G : Graph) (u v : String) :
    has_edge (stripSignals G) u v = has_edge G u v := by
  unfold has_edge stripSignals
  simp only [List.any_map]
  congr 1

theorem findEdge_gauge_stripSignals (G : Graph) (u v : String) :
    (findEdge (stripSignals G) u v).bind (·.gauge) =
      (findEdge G u v).bind (·.gauge) := by
  unfold findEdge stripSignals
  induction G.edges with
  | nil => rfl
  | cons e rest ih =>
      simp only [List.map_cons, List.findSome?_cons, edgeMatches_stripped]
      by_cases h : edgeMatches u v e = true
      · simp [h]
      · simp only [eq_false_of_ne_true h, Bool.false_eq_true, if_false]
        exact ih

theorem pathStep_stripSignals (G : Graph) (acc : Option ℚ)
    (e : String × String) :
    pathStep (stripSignals G) acc e = pathStep G acc e := by
  unfold pathStep
  cases acc with
  | none => rfl
  | some a => rw [has_edge_stripSignals, findEdge_gauge_stripSignals]

theorem foldl_pathStep_stripSignals (G : Graph)
    (prs : List (String × String)) :
    ∀ acc, prs.foldl (pathStep (stripSignals G)) acc =
      prs.foldl (pathStep G) acc := by
  induction prs with
  | nil => intro acc; rfl
  | cons pr rest ih =>
      intro acc
      simp only [List.foldl_cons, pathStep_stripSignals]
      exact ih _

theorem pathModeQ_stripSignals (G : Graph) (p : List String) :
    pathModeQ (stripSignals G) p = pathModeQ G p :=
  foldl_pathStep_stripSignals G (p.zip p.tail) (some 0)

/-- Claim C10, counterexample: an empty path is falsy in Python, so
`estimate_bundle_diameter` falls through to whole-graph hierarchical
mode and returns the two dicts, not the claimed bundle diameter `0.0`. -/
theorem c10_counterexample :
    estimate_bundle_diameter triJ (some []) true ≠
      Except.ok (BDResult.pathBundle 0) ∧
    isHier (estimate_bundle_diameter triJ (some []) true) = true := by
  decide!

theorem findSome?_edge_mem (u v : String) (l : List (String × String × EdgeData))
    (h : l.any (edgeMatches u v) = true) :
    ∃ e ∈ l, (l.findSome? fun e => if edgeMatches u v e then some e.2.2 else none) =
      some e.2.2 := by
  induction l with
  | nil => simp at h
  | cons e rest ih =>
      by_cases he : edgeMatches u v e = true
      · exact ⟨e, by simp, by simp [List.findSome?_cons, he]⟩
      · simp only [List.any_cons, Bool.or_eq_true] at h
        obtain ⟨d, hd1, hd2⟩ := ih (h.resolve_left he)
        refine ⟨d, List.mem_cons_of_mem _ hd1, ?_⟩
        simp only [List.findSome?_cons]
        rw [eq_false_of_ne_true he]
        simp only [Bool.false_eq_true, if_false]
        exact hd2

theorem findEdge_mem (G : Graph) {u v : String}
    (h : has_edge G u v = true) : ∃ e ∈ G.edges, findEdge G u v = some e.2.2 :=
  findSome?_edge_mem u v G.edges h

theorem foldl_pathStep_total (G : Graph)
    (hg : ∀ e ∈ G.edges, e.2.2.gauge.isSome) (prs : List (String × String)) :
    ∀ a : ℚ, ∃ q, prs.foldl (pathStep G) (some a) = some q := by
  induction prs with
  | nil => exact fun a => ⟨a, rfl⟩
  | cons pr rest ih =>
      intro a
      simp only [List.foldl_cons]
      unfold pathStep
      by_cases h : has_edge G pr.1 pr.2 = true
      · rw [h]
        simp only [if_true]
        obtain ⟨e, he, hd⟩ := findEdge_mem G h
        obtain ⟨g, hgg⟩ := Option.isSome_iff_exists.mp (hg e he)
        rw [hd]
        simp only [Option.bind, hgg]
        exact ih _
      · rw [eq_false_of_ne_true h]
        simp only [Bool.false_eq_true, if_false]
        exact ih a

theorem foldl_pathStep_skip (G : Graph) (prs : List (String × String)) :
    ∀ a : ℚ, (∀ pr ∈ prs, has_edge G pr.1 pr.2 = false) →
      prs.foldl (pathStep G) (some a) = some a := by
  induction prs with
  | nil => exact fun a _ => rfl
  | cons pr rest ih =>
      intro a hall
      simp only [List.foldl_cons]
      unfold pathStep
      rw [hall pr (by simp)]
      simp only [Bool.false_eq_true, if_false]
      exact ih a fun r hr => hall r (List.mem_cons_of_mem _ hr)

/-- Claim C10 (amended): on a **non-empty** path, path mode never raises
from a consecutive node pair that is not an edge (such pairs are skipped
and contribute no area, so as long as the existing path edges carry a
`gauge` attribute the call returns normally); a path none of whose
consecutive pairs is an edge — in particular a single-node path — yields
a bundle of area `0`, i.e. diameter exactly `0.0`; and the result depends
only on the gauges of the existing edges, never on their `signals`.  (An
empty path is falsy and is routed to whole-graph mode instead.) -/
theorem c10_path_mode (G : Graph) (p : List String) (ch : Bool)
    (hp : p ≠ []) :
    ((∀ e ∈ G.edges, e.2.2.gauge.isSome) →
      ∃ q, estimate_bundle_diameter G (some p) ch = .ok (.pathBundle q)) ∧
    ((∀ pr ∈ p.zip p.tail, has_edge G pr.1 pr.2 = false) →
      estimate_bundle_diameter G (some p) ch = .ok (.pathBundle 0) ∧
        realDiam 0 = 0) ∧
    estimate_bundle_diameter (stripSignals G) (some p) ch =
      estimate_bundle_diameter G (some p) ch := by
  obtain ⟨x, xs, rfl⟩ : ∃ x xs, p = x :: xs := by
    cases p with
    | nil => exact absurd rfl hp
    | cons x xs => exact ⟨x, xs, rfl⟩
  refine ⟨fun hg => ?_, fun hne => ?_, ?_⟩
  · obtain ⟨q, hq⟩ := foldl_pathStep_total G hg ((x :: xs).zip (x :: xs).tail) 0
    exact ⟨q, by simp only [estimate_bundle_diameter, pathTruthy, if_true,
      Option.getD, pathModeQ, hq]⟩
  · have hq := foldl_pathStep_skip G ((x :: xs).zip (x :: xs).tail) 0 hne
    refine ⟨?_, by simp [realDiam]⟩
    simp only [estimate_bundle_diameter, pathTruthy, if_true, Option.getD,
      pathModeQ, hq]
  · simp only [estimate_bundle_diameter, pathTruthy, if_true, Option.getD]
    rw [pathModeQ_stripSignals]

/-- Claim C10, witness: the single-node path `["x"]` in `triJ` (with all
gauges present and no consecutive edge) yields bundle diameter `0.0`,
by the amended theorem. -/
theorem c10_path_mode_witness :
    estimate_bundle_diameter triJ (some ["x"]) true = .ok (.pathBundle 0) ∧
      realDiam 0 = 0 :=
  (c10_path_mode triJ ["x"] true (by decide)).2.1 (by decide)

/-! ## C7 and C8: installation complexity and empty-graph defaults -/

theorem clamp_bounds (y : ℝ) : 1 ≤ min 10 (max 1 y) ∧ min 10 (max 1 y) ≤ 10 :=
  ⟨le_min (by norm_num) (le_max_left 1 y), min_le_left _ _⟩

theorem empty_total_length : calculate_total_length emptyGraph = some 0 := rfl

theorem empty_hierPair : hierPair emptyGraph = ([], []) := rfl

theorem empty_avgHierDiameter : avgHierDiameter emptyGraph = 0 := by
  simp [avgHierDiameter, empty_hierPair]

theorem empty_complexityWhole : complexityWhole emptyGraph = some 1 := by
  simp only [complexityWhole, empty_total_length, Option.map_some',
    empty_avgHierDiameter, Option.some.injEq]
  norm_num [junctionCount, junctionFilter, emptyGraph]

theorem empty_complexity :
    estimate_installation_complexity emptyGraph none = some 1 := by
  simp only [estimate_installation_complexity, pathTruthy, Bool.false_eq_true,
    if_false]
  exact empty_complexityWhole

theorem roundQ_zero (n : ℕ) : roundQ n 0 = 0 := by
  simp [roundQ, rheZ]

theorem roundR_zero (n : ℕ) : roundR n 0 = 0 := by
  simp [roundR, rheZR]

theorem roundR_one_one : roundR 1 1 = 1 := by
  have h10 : ((1 : ℝ) * 10 ^ 1) = 10 := by norm_num
  have hf : ⌊(10 : ℝ)⌋ = 10 := by norm_num
  simp only [roundR, rheZR, h10, hf]
  norm_num

/-- Claim C8: on the empty graph every aggregate computation of the
hierarchy-aware implementation returns its defined default
(`total_length = 0`, empty diameter/utilization dicts, zero reported
average/maximum diameter, whole-graph complexity exactly `1`, and a
complete report) — but `generate_report` of `harness_analyzer.py`
**raises** (`max()` over the empty diameter dict), which is the code bug
this claim exposes. -/
theorem c8_empty_graph_defaults :
    calculate_total_length emptyGraph = some 0 ∧
    estimate_bundle_diameter emptyGraph none true = .ok (.hier [] []) ∧
    estimate_bundle_diameter emptyGraph none false = .ok (.simple []) ∧
    estimate_installation_complexity emptyGraph none = some 1 ∧
    generate_report emptyGraph = some ⟨0, 0, 0, 0, 0, 0, 1, 0, 0⟩ ∧
    generate_report_ha emptyGraph = .error () := by
  refine ⟨rfl, rfl, rfl, empty_complexity, ?_, rfl⟩
  simp only [generate_report, empty_total_length, Option.some_bind,
    empty_hierPair, empty_complexityWhole, Option.map_some',
    Option.some.injEq, List.map_nil, if_pos rfl]
  simp [Report.mk.injEq, roundQ_zero, roundR_zero, roundR_one_one,
    junctionCount, junctionFilter, emptyGraph]

/-- Claim C7: `estimate_installation_complexity` computes, for the whole
graph, `min(10, max(1, total_length * avg_diameter * 0.5 +
junction_count * 1.5))` and, for a non-empty path,
`min(10, max(1, path_length * path_bundle_diameter * 0.8))`, and in both
implementations every returned value lies in `[1, 10]` (for any graph —
in particular for any non-negative lengths, diameters and junction
count). -/
theorem c7_complexity_clamped :
    (∀ G x, estimate_installation_complexity G none = some x →
      (1 ≤ x ∧ x ≤ 10) ∧
      ∀ total, calculate_total_length G = some total →
        x = min 10 (max 1 ((total : ℝ) * avgHierDiameter G * (5/10) +
          (junctionCount G : ℝ) * (15/10)))) ∧
    (∀ G p x, p ≠ [] →
      estimate_installation_complexity G (some p) = some x →
      (1 ≤ x ∧ x ≤ 10) ∧
      ∀ len q, path_length G p = some len → pathModeQ G p = some q →
        x = min 10 (max 1 ((len : ℝ) * realDiam q * (8/10)))) ∧
    (∀ G x, complexityWholeHa G = some x → 1 ≤ x ∧ x ≤ 10) := by
  refine ⟨fun G x hx => ?_, fun G p x hp hx => ?_, fun G x hx => ?_⟩
  · simp only [estimate_installation_complexity, pathTruthy,
      Bool.false_eq_true, if_false, complexityWhole] at hx
    obtain ⟨total, htot, rfl⟩ := Option.map_eq_some'.mp hx
    refine ⟨clamp_bounds _, fun total' htot' => ?_⟩
    rw [htot] at htot'
    cases htot'
    rfl
  · obtain ⟨y, ys, rfl⟩ : ∃ y ys, p = y :: ys := by
      cases p with
      | nil => exact absurd rfl hp
      | cons y ys => exact ⟨y, ys, rfl⟩
    simp only [estimate_installation_complexity, pathTruthy, if_true,
      Option.getD, complexityPath, Option.bind_eq_bind] at hx
    obtain ⟨len, hlen, hx2⟩ := Option.bind_eq_some.mp hx
    obtain ⟨q, hq, rfl⟩ := Option.map_eq_some'.mp hx2
    refine ⟨clamp_bounds _, fun len' q' hlen' hq' => ?_⟩
    rw [hlen] at hlen'
    rw [hq] at hq'
    cases hlen'
    cases hq'
    rfl
  · unfold complexityWholeHa at hx
    obtain ⟨total, _, hx2⟩ := Option.bind_eq_some.mp hx
    revert hx2
    generalize (simpleSegments G).map (fun kv => realDiam kv.2) = ds
    cases ds with
    | nil => intro h; cases h
    | cons d rest =>
        intro h
        cases h
        exact clamp_bounds _

/-- Claim C7, witness: the empty graph's whole-graph complexity is `1`,
which indeed lies in `[1, 10]`, by the main theorem. -/
theorem c7_complexity_clamped_witness :
    estimate_installation_complexity emptyGraph none = some 1 ∧
      (1 ≤ (1 : ℝ) ∧ (1 : ℝ) ≤ 10) :=
  ⟨empty_complexity,
   (c7_complexity_clamped.1 emptyGraph 1 empty_complexity).1⟩

/-! ## C1: the per-junction aggregation step -/

theorem sameEdge_symm {a b : String × String} (h : sameEdge a b) :
    sameEdge b a := by
  rcases h with ⟨h1, h2⟩ | ⟨h1, h2⟩
  · exact Or.inl ⟨h1.symm, h2.symm⟩
  · exact Or.inr ⟨h2.symm, h1.symm⟩

theorem sameEdge_trans {a b c : String × String} (h1 : sameEdge a b)
    (h2 : sameEdge b c) : sameEdge a c := by
  rcases h1 with ⟨x1, x2⟩ | ⟨x1, x2⟩ <;> rcases h2 with ⟨y1, y2⟩ | ⟨y1, y2⟩ <;>
    simp_all [sameEdge]

theorem sameEdge_swap_left {a b : String × String} :
    sameEdge (a.2, a.1) b ↔ sameEdge a b := by
  unfold sameEdge
  constructor <;> rintro (⟨h1, h2⟩ | ⟨h1, h2⟩) <;> simp_all

theorem sameEdge_of_eq {a b : String × String} (h : a = b) : sameEdge a b :=
  Or.inl ⟨congrArg Prod.fst h, congrArg Prod.snd h⟩

theorem sameEdge_swap (a : String × String) : sameEdge a (a.2, a.1) :=
  Or.inr ⟨rfl, rfl⟩

theorem lookupQ_cons (kv : (String × String) × ℚ) (rest : QMap)
    (k : String × String) :
    lookupQ (kv :: rest) k = if kv.1 = k then some kv.2 else lookupQ rest k := by
  unfold lookupQ
  by_cases h : kv.1 = k
  · rw [List.find?_cons_of_pos _ (by simpa using h), if_pos h]
    rfl
  · rw [List.find?_cons_of_neg _ (by simpa using h), if_neg h]

theorem lookupQ_updMap (m : QMap) (k k' : String × String) (q : ℚ) :
    lookupQ (updMap m k q) k' = if k' = k then some q else lookupQ m k' := by
  induction m with
  | nil =>
      rw [show updMap [] k q = [(k, q)] from rfl, lookupQ_cons]
      by_cases h : k' = k
      · rw [if_pos h.symm, if_pos h]
      · rw [if_neg (fun hh => h hh.symm), if_neg h]
  | cons kv rest ih =>
      unfold updMap
      by_cases hk : kv.1 = k
      · rw [if_pos hk, lookupQ_cons, lookupQ_cons]
        by_cases h : k' = k
        · rw [if_pos h.symm, if_pos h]
        · rw [if_neg (fun hh => h hh.symm), if_neg h,
            if_neg (fun hh : kv.1 = k' => h (hh.symm.trans hk))]
      · rw [if_neg hk, lookupQ_cons, lookupQ_cons]
        by_cases hkv : kv.1 = k'
        · rw [if_pos hkv, if_pos hkv,
            if_neg (fun hh : k' = k => hk (hkv.trans hh))]
        · rw [if_neg hkv, if_neg hkv, ih]

theorem stepEdge_lookup_preserved (de : List (String × String)) (downQ : ℚ)
    (st : QMap × QMap) (e' k : String × String) (hk : ¬ sameEdge k e') :
    lookupQ (stepEdge de downQ st e').1 k = lookupQ st.1 k ∧
    lookupQ (stepEdge de downQ st e').2 k = lookupQ st.2 k := by
  unfold stepEdge
  by_cases hd : isDownstream de e' = true
  · simp [hd]
  · have hk1 : k ≠ e' := fun h => hk (sameEdge_of_eq h)
    have hk2 : k ≠ (e'.2, e'.1) := fun h =>
      hk (sameEdge_trans (sameEdge_of_eq h) (sameEdge_swap_left.mpr (sameEdge_of_eq rfl)))
    rw [eq_false_of_ne_true hd]
    simp only [Bool.false_eq_true, if_false]
    by_cases hp : (0 : ℚ) <
        (lookupQ st.1 e').getD ((lookupQ st.1 (e'.2, e'.1)).getD 0) + downQ
    · simp only [if_pos hp, lookupQ_updMap, if_neg hk2, if_neg hk1, and_self]
    · simp [if_neg hp]

theorem foldl_stepEdge_preserved (de : List (String × String)) (downQ : ℚ)
    (l : List (String × String)) :
    ∀ (st : QMap × QMap) (k : String × String),
      (∀ e' ∈ l, ¬ sameEdge k e') →
      lookupQ (l.foldl (stepEdge de downQ) st).1 k = lookupQ st.1 k ∧
      lookupQ (l.foldl (stepEdge de downQ) st).2 k = lookupQ st.2 k := by
  induction l with
  | nil => exact fun st k _ => ⟨rfl, rfl⟩
  | cons e' rest ih =>
      intro st k hall
      simp only [List.foldl_cons]
      have h1 := stepEdge_lookup_preserved de downQ st e' k (hall e' (by simp))
      have h2 := ih (stepEdge de downQ st e') k
        (fun x hx => hall x (List.mem_cons_of_mem _ hx))
      exact ⟨h2.1.trans h1.1, h2.2.trans h1.2⟩

theorem incomingEdges_mem (G : Graph) (j : String) (e : String × String)
    (he : e ∈ incomingEdges G j) :
    ∃ ed ∈ G.edges, sameEdge e (ed.1, ed.2.1) := by
  unfold incomingEdges at he
  obtain ⟨ed, hed, hsome⟩ := List.mem_filterMap.mp he
  refine ⟨ed, hed, ?_⟩
  by_cases h1 : ed.1 = j
  · rw [if_pos h1] at hsome
    cases hsome
    exact Or.inr ⟨rfl, h1.symm⟩
  · rw [if_neg h1] at hsome
    by_cases h2 : ed.2.1 = j
    · rw [if_pos h2] at hsome
      cases hsome
      exact Or.inr ⟨h2.symm, rfl⟩
    · rw [if_neg h2] at hsome
      cases hsome

theorem incomingEdges_pairwise (G : Graph) (hWF : WF G) (j : String) :
    (incomingEdges G j).Pairwise fun a b => ¬ sameEdge a b := by
  have hp := hWF.2.2
  unfold incomingEdges
  have key : ∀ (a b : String × String × EdgeData),
      ¬ sameEdge (a.1, a.2.1) (b.1, b.2.1) →
      ∀ x ∈ (if a.1 = j then some (a.2.1, j)
             else if a.2.1 = j then some (j, a.1) else none),
      ∀ y ∈ (if b.1 = j then some (b.2.1, j)
             else if b.2.1 = j then some (j, b.1) else none),
      ¬ sameEdge x y := by
    intro a b hab x hx y hy hxy
    have hxa : sameEdge x (a.1, a.2.1) := by
      by_cases h1 : a.1 = j
      · rw [if_pos h1] at hx
        cases hx
        exact Or.inr ⟨rfl, h1.symm⟩
      · rw [if_neg h1] at hx
        by_cases h2 : a.2.1 = j
        · rw [if_pos h2] at hx
          cases hx
          exact Or.inr ⟨h2.symm, rfl⟩
        · rw [if_neg h2] at hx
          cases hx
    have hyb : sameEdge y (b.1, b.2.1) := by
      by_cases h1 : b.1 = j
      · rw [if_pos h1] at hy
        cases hy
        exact Or.inr ⟨rfl, h1.symm⟩
      · rw [if_neg h1] at hy
        by_cases h2 : b.2.1 = j
        · rw [if_pos h2] at hy
          cases hy
          exact Or.inr ⟨h2.symm, rfl⟩
        · rw [if_neg h2] at hy
          cases hy
    exact hab (sameEdge_trans (sameEdge_trans (sameEdge_symm hxa) hxy) hyb)
  have hp2 : (G.edges.map fun e => (e.1, e.2.1)).Pairwise
      (fun a b => ¬ sameEdge a b) := hp
  have hp3 : G.edges.Pairwise
      (fun a b => ¬ sameEdge (a.1, a.2.1) (b.1, b.2.1)) := by
    rw [List.pairwise_map] at hp2
    exact hp2
  exact List.Pairwise.filterMap _ key hp3

theorem incomingEdges_ne (G : Graph) (hWF : WF G) (j : String)
    (e : String × String) (he : e ∈ incomingEdges G j) : e.1 ≠ e.2 := by
  obtain ⟨ed, hed, hse⟩ := incomingEdges_mem G j e he
  have hne := (hWF.2.1 ed hed).2.2.1
  rcases hse with ⟨h1, h2⟩ | ⟨h1, h2⟩
  · intro h
    exact hne ((h1.symm.trans h).trans h2)
  · intro h
    exact hne ((h2.symm.trans h.symm).trans h1)

/-- Claim C1 (amended): in the whole-graph hierarchical mode, when a
junction `j` is processed on state `(sd, su)`, every non-downstream
incoming edge `e` of `j` with positive total area is updated so that its
new stored area is its current area (looked up first under `e`, then
under the reversed key, else `0`) **plus `downTotal sd de`** — the sum of
the current areas of only those downstream edges of `j` whose
DFS-oriented key is literally present in `sd` (a downstream edge keyed
only under the opposite orientation contributes nothing) — and the new
diameter and space utilization are stored identically under both directed
keys of `e`. -/
theorem c1_junction_step (G : Graph) (hWF : WF G) (j : String)
    (sd su : QMap) (e : String × String)
    (he : e ∈ incomingEdges G j)
    (hnd : isDownstream (get_downstream_edges G j) e = false)
    (hpos : 0 < (lookupQ sd e).getD ((lookupQ sd (e.2, e.1)).getD 0) +
      downTotal sd (get_downstream_edges G j)) :
    lookupQ (processJunction G (sd, su) j).1 e =
      some ((lookupQ sd e).getD ((lookupQ sd (e.2, e.1)).getD 0) +
        downTotal sd (get_downstream_edges G j)) ∧
    lookupQ (processJunction G (sd, su) j).1 (e.2, e.1) =
      lookupQ (processJunction G (sd, su) j).1 e ∧
    lookupQ (processJunction G (sd, su) j).2 e =
      some ((lookupQ sd e).getD ((lookupQ sd (e.2, e.1)).getD 0) /
        ((lookupQ sd e).getD ((lookupQ sd (e.2, e.1)).getD 0) +
          downTotal sd (get_downstream_edges G j)) * 100) ∧
    lookupQ (processJunction G (sd, su) j).2 (e.2, e.1) =
      lookupQ (processJunction G (sd, su) j).2 e := by
  obtain ⟨pre, post, hsplit⟩ := List.append_of_mem he
  have hpw := incomingEdges_pairwise G hWF j
  rw [hsplit] at hpw
  have hpre : ∀ e' ∈ pre, ¬ sameEdge e e' := by
    intro e' he'
    have := (List.pairwise_append.mp hpw).2.2 e' he' e (by simp)
    exact fun h => this (sameEdge_symm h)
  have hpost : ∀ e' ∈ post, ¬ sameEdge e e' :=
    (List.pairwise_cons.mp (List.pairwise_append.mp hpw).2.1).1
  have hne : e.1 ≠ e.2 := incomingEdges_ne G hWF j e he
  unfold processJunction
  rw [hsplit, List.foldl_append, List.foldl_cons]
  set de := get_downstream_edges G j with hde
  set downQ := downTotal sd de with hdq
  set st1 := pre.foldl (stepEdge de downQ) (sd, su) with hst1
  have hpres1 : lookupQ st1.1 e = lookupQ sd e ∧ lookupQ st1.2 e = lookupQ su e :=
    foldl_stepEdge_preserved de downQ pre (sd, su) e hpre
  have hpres1s : lookupQ st1.1 (e.2, e.1) = lookupQ sd (e.2, e.1) ∧
      lookupQ st1.2 (e.2, e.1) = lookupQ su (e.2, e.1) :=
    foldl_stepEdge_preserved de downQ pre (sd, su) (e.2, e.1)
      (fun e' he' h => hpre e' he' (sameEdge_swap_left.mp h))
  have hstep : stepEdge de downQ st1 e =
      (updMap (updMap st1.1 e ((lookupQ sd e).getD ((lookupQ sd (e.2, e.1)).getD 0) + downQ))
        (e.2, e.1) ((lookupQ sd e).getD ((lookupQ sd (e.2, e.1)).getD 0) + downQ),
       updMap (updMap st1.2 e ((lookupQ sd e).getD ((lookupQ sd (e.2, e.1)).getD 0) /
          ((lookupQ sd e).getD ((lookupQ sd (e.2, e.1)).getD 0) + downQ) * 100))
        (e.2, e.1) ((lookupQ sd e).getD ((lookupQ sd (e.2, e.1)).getD 0) /
          ((lookupQ sd e).getD ((lookupQ sd (e.2, e.1)).getD 0) + downQ) * 100)) := by
    unfold stepEdge
    rw [hnd]
    simp only [Bool.false_eq_true, if_false, hpres1.1, hpres1s.1]
    rw [if_pos hpos]
  have hswapne : e ≠ (e.2, e.1) := by
    intro h
    exact hne (congrArg Prod.fst h)
  have hke : ∀ e' ∈ post, ¬ sameEdge e e' := hpost
  have hkes : ∀ e' ∈ post, ¬ sameEdge (e.2, e.1) e' :=
    fun e' he' h => hpost e' he' (sameEdge_swap_left.mp h)
  have h1 := foldl_stepEdge_preserved de downQ post (stepEdge de downQ st1 e) e hke
  have h2 := foldl_stepEdge_preserved de downQ post (stepEdge de downQ st1 e)
    (e.2, e.1) hkes
  rw [h1.1, h1.2, h2.1, h2.2, hstep]
  simp only [lookupQ_updMap, if_pos rfl, if_neg hswapne, if_neg (Ne.symm hswapne)]
  exact ⟨rfl, rfl, rfl, rfl⟩

/-- Claim C1, counterexample: in `triJ` the junction `j` has downstream
edges `("j","a")` and `("a","b")`, but the `a--j` edge is keyed in
`segment_diameters` only as `("a","j")`, so when the upstream edge
`("j","b")` is updated, the added area is only the `a--b` area
(`2601/10000`) instead of the claimed sum of **all** downstream areas
(`16641/40000 + 2601/10000`). -/
theorem c1_counterexample :
    get_downstream_edges triJ "j" = [("j", "a"), ("a", "b")] ∧
    lookupQ (baseSegments triJ) ("a", "j") = some (16641/40000) ∧
    lookupQ (baseSegments triJ) ("b", "j") = some (6561/40000) ∧
    downTotal (baseSegments triJ) (get_downstream_edges triJ "j") =
      2601/10000 ∧
    lookupQ (hierPair triJ).1 ("j", "b") =
      some (6561/40000 + 2601/10000) ∧
    ((2601/10000 : ℚ) ≠ 16641/40000 + 2601/10000) :=
  ⟨by decide!, by decide!,
   by decide!, by decide!,
   by decide!, by decide!⟩

/-- Claim C1, witness: the amended per-junction step theorem applied to
`triJ`, junction `j`, base state, and the upstream edge `("j","b")`. -/
theorem c1_junction_step_witness :
    lookupQ (processJunction triJ (baseSegments triJ, []) "j").1 ("j", "b") =
      some ((lookupQ (baseSegments triJ) ("j", "b")).getD
          ((lookupQ (baseSegments triJ) ("b", "j")).getD 0) +
        downTotal (baseSegments triJ) (get_downstream_edges triJ "j")) :=
  (c1_junction_step triJ (by decide!) "j"
    (baseSegments triJ) [] ("j", "b")
    (by decide!)
    (by decide!)
    (by decide!)).1

/-! ## C2: monotonicity of hierarchical aggregation

The invariant carried through the junction loop: every stored orientation
of a graph edge is a key of `segment_diameters`, and every stored value
dominates the base segment area of its undirected edge. -/

theorem base_segment_q_nonneg (d : EdgeData) : 0 ≤ base_segment_q d :=
  mul_nonneg (Nat.cast_nonneg _) (mul_self_nonneg _)

theorem baseQU_nonneg (G : Graph) (k : String × String) : 0 ≤ baseQU G k := by
  unfold baseQU
  cases findEdge G k.1 k.2 with
  | none => exact le_refl 0
  | some d => exact base_segment_q_nonneg d

theorem edgeMatches_comm (u v : String) (e : String × String × EdgeData) :
    edgeMatches u v e = edgeMatches v u e := by
  unfold edgeMatches
  rw [Bool.or_comm]

theorem findEdge_comm (G : Graph) (u v : String) :
    findEdge G u v = findEdge G v u := by
  unfold findEdge
  congr 1
  funext e
  rw [edgeMatches_comm]

theorem baseQU_swap (G : Graph) (k : String × String) :
    baseQU G (k.2, k.1) = baseQU G k := by
  unfold baseQU
  rw [findEdge_comm]

theorem downTotal_nonneg (sd : QMap) (de : List (String × String))
    (h : ∀ k q, lookupQ sd k = some q → 0 ≤ q) : 0 ≤ downTotal sd de := by
  induction de with
  | nil => exact le_refl 0
  | cons e rest ih =>
      unfold downTotal
      refine add_nonneg ?_ ih
      cases hq : lookupQ sd e with
      | none => exact le_refl 0
      | some q => exact h e q hq

theorem incomingEdges_swap_stored (G : Graph) (j : String)
    (e : String × String) (he : e ∈ incomingEdges G j) :
    ∃ ed ∈ G.edges, (e.2, e.1) = (ed.1, ed.2.1) := by
  unfold incomingEdges at he
  obtain ⟨ed, hed, hsome⟩ := List.mem_filterMap.mp he
  refine ⟨ed, hed, ?_⟩
  by_cases h1 : ed.1 = j
  · rw [if_pos h1] at hsome
    cases hsome
    exact Prod.ext h1.symm rfl
  · rw [if_neg h1] at hsome
    by_cases h2 : ed.2.1 = j
    · rw [if_pos h2] at hsome
      cases hsome
      exact Prod.ext rfl h2.symm
    · rw [if_neg h2] at hsome
      cases hsome

theorem lookupQ_base_list_none (k : String × String) :
    ∀ l : List (String × String × EdgeData),
      (∀ ed ∈ l, ((ed.1, ed.2.1) : String × String) ≠ k) →
      lookupQ (l.map fun e => ((e.1, e.2.1), base_segment_q e.2.2)) k = none := by
  intro l
  induction l with
  | nil => intro _; rfl
  | cons ed rest ih =>
      intro hall
      rw [List.map_cons, lookupQ_cons, if_neg (hall ed (by simp))]
      exact ih fun x hx => hall x (List.mem_cons_of_mem _ hx)

theorem lookupQ_base_list (k : String × String) (q : ℚ) :
    ∀ l : List (String × String × EdgeData),
      (l.map fun e => (e.1, e.2.1)).Pairwise (fun a b => ¬ sameEdge a b) →
      lookupQ (l.map fun e => ((e.1, e.2.1), base_segment_q e.2.2)) k = some q →
      q = (match l.findSome?
            (fun e => if edgeMatches k.1 k.2 e then some e.2.2 else none) with
          | some d => base_segment_q d
          | none => 0) := by
  intro l
  induction l with
  | nil => intro _ hq; cases hq
  | cons ed rest ih =>
      intro hp hq
      rw [List.map_cons, lookupQ_cons] at hq
      rw [List.map_cons, List.pairwise_cons] at hp
      rw [List.findSome?_cons]
      by_cases hk : (ed.1, ed.2.1) = k
      · rw [if_pos hk] at hq
        have hm : edgeMatches k.1 k.2 ed = true := by
          unfold edgeMatches
          have h1 : ed.1 = k.1 := congrArg Prod.fst hk
          have h2 : ed.2.1 = k.2 := congrArg Prod.snd hk
          simp [h1, h2]
        rw [hm]
        cases hq
        rfl
      · rw [if_neg hk] at hq
        by_cases hm : edgeMatches k.1 k.2 ed = true
        · exfalso
          have hsame : sameEdge (ed.1, ed.2.1) k := by
            unfold edgeMatches at hm
            simp only [Bool.or_eq_true, Bool.and_eq_true, decide_eq_true_eq] at hm
            rcases hm with ⟨h1, h2⟩ | ⟨h1, h2⟩
            · exact Or.inl ⟨h1, h2⟩
            · exact Or.inr ⟨h1, h2⟩
          have hnone : ∀ ed2 ∈ rest, ((ed2.1, ed2.2.1) : String × String) ≠ k := by
            intro ed2 hed2 hkey
            exact hp.1 (ed2.1, ed2.2.1) (List.mem_map_of_mem _ hed2)
              (sameEdge_trans hsame (sameEdge_symm (sameEdge_of_eq hkey)))
          rw [lookupQ_base_list_none k rest hnone] at hq
          cases hq
        · rw [eq_false_of_ne_true hm]
          simp only [Bool.false_eq_true, if_false]
          exact ih hp.2 hq

theorem lookupQ_baseSegments_eq (G : Graph) (hWF : WF G)
    (k : String × String) (q : ℚ)
    (hq : lookupQ (baseSegments G) k = some q) : q = baseQU G k :=
  lookupQ_base_list k q G.edges hWF.2.2 hq

theorem stepEdge_inv (G : Graph) (j : String) (de : List (String × String))
    (downQ : ℚ) (hdq : 0 ≤ downQ) (st : QMap × QMap) (e : String × String)
    (he : e ∈ incomingEdges G j)
    (hsome : ∀ ed ∈ G.edges, (lookupQ st.1 (ed.1, ed.2.1)).isSome = true)
    (hdom : ∀ k q, lookupQ st.1 k = some q → baseQU G k ≤ q) :
    (∀ ed ∈ G.edges,
      (lookupQ (stepEdge de downQ st e).1 (ed.1, ed.2.1)).isSome = true) ∧
    (∀ k q, lookupQ (stepEdge de downQ st e).1 k = some q → baseQU G k ≤ q) := by
  unfold stepEdge
  by_cases hd : isDownstream de e = true
  · rw [if_pos hd]
    exact ⟨hsome, hdom⟩
  · rw [eq_false_of_ne_true hd]
    simp only [Bool.false_eq_true, if_false]
    by_cases hp : (0 : ℚ) <
        (lookupQ st.1 e).getD ((lookupQ st.1 (e.2, e.1)).getD 0) + downQ
    · rw [if_pos hp]
      have hbase : baseQU G e ≤
          (lookupQ st.1 e).getD ((lookupQ st.1 (e.2, e.1)).getD 0) := by
        cases h1 : lookupQ st.1 e with
        | some x => simpa [h1] using hdom e x h1
        | none =>
            cases h2 : lookupQ st.1 (e.2, e.1) with
            | some y =>
                have := hdom (e.2, e.1) y h2
                rw [baseQU_swap] at this
                simpa [h1, h2] using this
            | none =>
                exfalso
                obtain ⟨ed, hed, hkey⟩ := incomingEdges_swap_stored G j e he
                have := hsome ed hed
                rw [← hkey, h2] at this
                cases this
      constructor
      · intro ed hed
        have := hsome ed hed
        rw [lookupQ_updMap, lookupQ_updMap]
        by_cases ha : ((ed.1, ed.2.1) : String × String) = (e.2, e.1)
        · rw [if_pos ha]
          rfl
        · rw [if_neg ha]
          by_cases hb : ((ed.1, ed.2.1) : String × String) = e
          · rw [if_pos hb]
            rfl
          · rw [if_neg hb]
            exact this
      · intro k q hq
        rw [lookupQ_updMap] at hq
        by_cases ha : k = (e.2, e.1)
        · rw [if_pos ha] at hq
          cases hq
          rw [ha, baseQU_swap]
          exact le_add_of_le_of_nonneg hbase hdq
        · rw [if_neg ha, lookupQ_updMap] at hq
          by_cases hb : k = e
          · rw [if_pos hb] at hq
            cases hq
            rw [hb]
            exact le_add_of_le_of_nonneg hbase hdq
          · rw [if_neg hb] at hq
            exact hdom k q hq
    · rw [if_neg hp]
      exact ⟨hsome, hdom⟩

theorem foldl_stepEdge_inv (G : Graph) (j : String)
    (de : List (String × String)) (downQ : ℚ) (hdq : 0 ≤ downQ) :
    ∀ (l : List (String × String)), (∀ x ∈ l, x ∈ incomingEdges G j) →
    ∀ (st : QMap × QMap),
      (∀ ed ∈ G.edges, (lookupQ st.1 (ed.1, ed.2.1)).isSome = true) →
      (∀ k q, lookupQ st.1 k = some q → baseQU G k ≤ q) →
      (∀ ed ∈ G.edges,
        (lookupQ (l.foldl (stepEdge de downQ) st).1 (ed.1, ed.2.1)).isSome = true) ∧
      (∀ k q, lookupQ (l.foldl (stepEdge de downQ) st).1 k = some q →
        baseQU G k ≤ q) := by
  intro l
  induction l with
  | nil => exact fun _ st h1 h2 => ⟨h1, h2⟩
  | cons e rest ih =>
      intro hl st h1 h2
      simp only [List.foldl_cons]
      have hstep := stepEdge_inv G j de downQ hdq st e (hl e (by simp)) h1 h2
      exact ih (fun x hx => hl x (List.mem_cons_of_mem _ hx)) _ hstep.1 hstep.2

theorem processJunction_inv (G : Graph) (j : String) (st : QMap × QMap)
    (hsome : ∀ ed ∈ G.edges, (lookupQ st.1 (ed.1, ed.2.1)).isSome = true)
    (hdom : ∀ k q, lookupQ st.1 k = some q → baseQU G k ≤ q) :
    (∀ ed ∈ G.edges,
      (lookupQ (processJunction G st j).1 (ed.1, ed.2.1)).isSome = true) ∧
    (∀ k q, lookupQ (processJunction G st j).1 k = some q → baseQU G k ≤ q) := by
  unfold processJunction
  have hdq : 0 ≤ downTotal st.1 (get_downstream_edges G j) :=
    downTotal_nonneg st.1 _ fun k q hq =>
      le_trans (baseQU_nonneg G k) (hdom k q hq)
  exact foldl_stepEdge_inv G j _ _ hdq (incomingEdges G j) (fun x hx => hx)
    st hsome hdom

theorem base_list_isSome (ed : String × String × EdgeData) :
    ∀ l : List (String × String × EdgeData), ed ∈ l →
      (lookupQ (l.map fun e => ((e.1, e.2.1), base_segment_q e.2.2))
        (ed.1, ed.2.1)).isSome = true := by
  intro l
  induction l with
  | nil => intro h; cases h
  | cons e rest ih =>
      intro hm
      rw [List.map_cons, lookupQ_cons]
      by_cases h : ((e.1, e.2.1) : String × String) = (ed.1, ed.2.1)
      · rw [if_pos h]
        rfl
      · rw [if_neg h]
        rcases List.mem_cons.mp hm with rfl | hmm
        · exact absurd rfl h
        · exact ih hmm

theorem baseSegments_isSome (G : Graph) (ed : String × String × EdgeData)
    (hed : ed ∈ G.edges) :
    (lookupQ (baseSegments G) (ed.1, ed.2.1)).isSome = true :=
  base_list_isSome ed G.edges hed

theorem foldl_processJunction_inv (G : Graph) :
    ∀ (js : List String) (st : QMap × QMap),
      (∀ ed ∈ G.edges, (lookupQ st.1 (ed.1, ed.2.1)).isSome = true) →
      (∀ k q, lookupQ st.1 k = some q → baseQU G k ≤ q) →
      (∀ ed ∈ G.edges,
        (lookupQ (js.foldl (processJunction G) st).1 (ed.1, ed.2.1)).isSome = true) ∧
      (∀ k q, lookupQ (js.foldl (processJunction G) st).1 k = some q →
        baseQU G k ≤ q) := by
  intro js
  induction js with
  | nil => exact fun st h1 h2 => ⟨h1, h2⟩
  | cons j rest ih =>
      intro st h1 h2
      simp only [List.foldl_cons]
      have h := processJunction_inv G j st h1 h2
      exact ih _ h.1 h.2

theorem hierRaw_inv (G : Graph) (hWF : WF G) :
    (∀ ed ∈ G.edges, (lookupQ (hierRaw G).1 (ed.1, ed.2.1)).isSome = true) ∧
    (∀ k q, lookupQ (hierRaw G).1 k = some q → baseQU G k ≤ q) := by
  unfold hierRaw
  exact foldl_processJunction_inv G (sortedJunctions G) (baseSegments G, [])
    (fun ed hed => baseSegments_isSome G ed hed)
    (fun k q hq => le_of_eq (lookupQ_baseSegments_eq G hWF k q hq).symm)

theorem realDiam_mono {a b : ℚ} (h : a ≤ b) : realDiam a ≤ realDiam b := by
  unfold realDiam
  have : ((a : ℝ)) ≤ (b : ℝ) := by exact_mod_cast h
  have hs := Real.sqrt_le_sqrt this
  linarith

/-- Claim C2: every diameter in the mapping returned by whole-graph
hierarchical `estimate_bundle_diameter` dominates that edge's
pre-aggregation base diameter (computed from its gauge and signal count
alone): aggregation only ever adds nonnegative downstream area to the
current area of an edge, so stored areas — and hence diameters — never
drop below the base. -/
theorem c2_diameter_monotone (G : Graph) (hWF : WF G) (u v : String)
    (q : ℚ) (hq : lookupQ (hierPair G).1 (u, v) = some q) :
    baseQU G (u, v) ≤ q ∧
      realDiam (baseQU G (u, v)) ≤ realDiam q := by
  have hinv := (hierRaw_inv G hWF).2 (u, v) q (by
    have : (hierPair G).1 = (hierRaw G).1 := rfl
    rw [← this]
    exact hq)
  exact ⟨hinv, realDiam_mono hinv⟩

/-- Claim C2, witness: in `triJ` the aggregated area stored for the
cycle-closing edge `("j","b")` dominates its base area. -/
theorem c2_diameter_monotone_witness :
    baseQU triJ ("j", "b") ≤ 6561/40000 + 2601/10000 ∧
      realDiam (baseQU triJ ("j", "b")) ≤ realDiam (6561/40000 + 2601/10000) :=
  c2_diameter_monotone triJ (by decide!) "j" "b" (6561/40000 + 2601/10000)
    (by decide!)

/-! ## C3: space utilization -/

theorem gauge_to_diameter_pos (g : Int) : 0 < gauge_to_diameter g := by
  unfold gauge_to_diameter
  split_ifs <;> norm_num

theorem base_segment_q_pos (d : EdgeData) (h : 1 ≤ sigCount d) :
    0 < base_segment_q d := by
  unfold base_segment_q sq
  have hw : 0 < gauge_to_diameter (d.gauge.getD 20) / 2 :=
    div_pos (gauge_to_diameter_pos _) (by norm_num)
  have hn : (0 : ℚ) < (sigCount d : ℚ) := by exact_mod_cast h
  exact mul_pos hn (mul_pos hw hw)

theorem has_edge_of_matches (G : Graph) (u v : String)
    (ed : String × String × EdgeData) (hed : ed ∈ G.edges)
    (hm : edgeMatches u v ed = true) : has_edge G u v = true :=
  List.any_eq_true.mpr ⟨ed, hed, hm⟩

/-- The utilization invariant carried through the junction loop: every
entry of `space_utilization` is `a / (a + d) * 100` for the updated
edge's pre-update area `a` (which dominates its base area) and the
junction's nonnegative downstream total `d`, and its key names an actual
edge of the graph. -/
theorem stepEdge_su_inv (G : Graph) (j : String)
    (de : List (String × String)) (downQ : ℚ) (hdq : 0 ≤ downQ)
    (st : QMap × QMap) (e : String × String) (he : e ∈ incomingEdges G j)
    (hsome : ∀ ed ∈ G.edges, (lookupQ st.1 (ed.1, ed.2.1)).isSome = true)
    (hdom : ∀ k q, lookupQ st.1 k = some q → baseQU G k ≤ q)
    (hsu : ∀ k v, lookupQ st.2 k = some v →
      (∃ ed ∈ G.edges, findEdge G k.1 k.2 = some ed.2.2) ∧
      ∃ a d, baseQU G k ≤ a ∧ 0 ≤ d ∧ 0 < a + d ∧ v = a / (a + d) * 100) :
    ∀ k v, lookupQ (stepEdge de downQ st e).2 k = some v →
      (∃ ed ∈ G.edges, findEdge G k.1 k.2 = some ed.2.2) ∧
      ∃ a d, baseQU G k ≤ a ∧ 0 ≤ d ∧ 0 < a + d ∧ v = a / (a + d) * 100 := by
  unfold stepEdge
  by_cases hd : isDownstream de e = true
  · rw [if_pos hd]
    exact hsu
  · rw [eq_false_of_ne_true hd]
    simp only [Bool.false_eq_true, if_false]
    by_cases hp : (0 : ℚ) <
        (lookupQ st.1 e).getD ((lookupQ st.1 (e.2, e.1)).getD 0) + downQ
    · rw [if_pos hp]
      have hbase : baseQU G e ≤
          (lookupQ st.1 e).getD ((lookupQ st.1 (e.2, e.1)).getD 0) := by
        cases h1 : lookupQ st.1 e with
        | some x => simpa [h1] using hdom e x h1
        | none =>
            cases h2 : lookupQ st.1 (e.2, e.1) with
            | some y =>
                have := hdom (e.2, e.1) y h2
                rw [baseQU_swap] at this
                simpa [h1, h2] using this
            | none =>
                exfalso
                obtain ⟨ed, hed, hkey⟩ := incomingEdges_swap_stored G j e he
                have := hsome ed hed
                rw [← hkey, h2] at this
                cases this
      have hex : ∃ ed ∈ G.edges, findEdge G e.1 e.2 = some ed.2.2 := by
        obtain ⟨ed, hed, hkey⟩ := incomingEdges_swap_stored G j e he
        refine findEdge_mem G (has_edge_of_matches G e.1 e.2 ed hed ?_)
        have h1 : ed.1 = e.2 := (congrArg Prod.fst hkey).symm
        have h2 : ed.2.1 = e.1 := (congrArg Prod.snd hkey).symm
        unfold edgeMatches
        simp [h1, h2]
      have hexs : ∃ ed ∈ G.edges, findEdge G e.2 e.1 = some ed.2.2 := by
        obtain ⟨ed, hed, hfe⟩ := hex
        exact ⟨ed, hed, (findEdge_comm G e.2 e.1).trans hfe⟩
      intro k v hv
      simp only [lookupQ_updMap] at hv
      by_cases ha : k = (e.2, e.1)
      · rw [if_pos ha] at hv
        cases hv
        subst ha
        refine ⟨hexs, ⟨(lookupQ st.1 e).getD ((lookupQ st.1 (e.2, e.1)).getD 0),
          downQ, ?_, hdq, hp, rfl⟩⟩
        rw [baseQU_swap G e]
        exact hbase
      · rw [if_neg ha] at hv
        by_cases hb : k = e
        · rw [if_pos hb] at hv
          cases hv
          rw [hb]
          exact ⟨hex, ⟨(lookupQ st.1 e).getD ((lookupQ st.1 (e.2, e.1)).getD 0),
            downQ, hbase, hdq, hp, rfl⟩⟩
        · rw [if_neg hb] at hv
          exact hsu k v hv
    · rw [if_neg hp]
      exact hsu

theorem foldl_stepEdge_su_inv (G : Graph) (j : String)
    (de : List (String × String)) (downQ : ℚ) (hdq : 0 ≤ downQ) :
    ∀ (l : List (String × String)), (∀ x ∈ l, x ∈ incomingEdges G j) →
    ∀ (st : QMap × QMap),
      (∀ ed ∈ G.edges, (lookupQ st.1 (ed.1, ed.2.1)).isSome = true) →
      (∀ k q, lookupQ st.1 k = some q → baseQU G k ≤ q) →
      (∀ k v, lookupQ st.2 k = some v →
        (∃ ed ∈ G.edges, findEdge G k.1 k.2 = some ed.2.2) ∧
        ∃ a d, baseQU G k ≤ a ∧ 0 ≤ d ∧ 0 < a + d ∧ v = a / (a + d) * 100) →
      ∀ k v, lookupQ (l.foldl (stepEdge de downQ) st).2 k = some v →
        (∃ ed ∈ G.edges, findEdge G k.1 k.2 = some ed.2.2) ∧
        ∃ a d, baseQU G k ≤ a ∧ 0 ≤ d ∧ 0 < a + d ∧ v = a / (a + d) * 100 := by
  intro l
  induction l with
  | nil => exact fun _ st _ _ hsu => hsu
  | cons e rest ih =>
      intro hl st h1 h2 hsu
      simp only [List.foldl_cons]
      have hsd := stepEdge_inv G j de downQ hdq st e (hl e (by simp)) h1 h2
      exact ih (fun x hx => hl x (List.mem_cons_of_mem _ hx)) _ hsd.1 hsd.2
        (stepEdge_su_inv G j de downQ hdq st e (hl e (by simp)) h1 h2 hsu)

theorem processJunction_su_inv (G : Graph) (j : String) (st : QMap × QMap)
    (hsome : ∀ ed ∈ G.edges, (lookupQ st.1 (ed.1, ed.2.1)).isSome = true)
    (hdom : ∀ k q, lookupQ st.1 k = some q → baseQU G k ≤ q)
    (hsu : ∀ k v, lookupQ st.2 k = some v →
      (∃ ed ∈ G.edges, findEdge G k.1 k.2 = some ed.2.2) ∧
      ∃ a d, baseQU G k ≤ a ∧ 0 ≤ d ∧ 0 < a + d ∧ v = a / (a + d) * 100) :
    ∀ k v, lookupQ (processJunction G st j).2 k = some v →
      (∃ ed ∈ G.edges, findEdge G k.1 k.2 = some ed.2.2) ∧
      ∃ a d, baseQU G k ≤ a ∧ 0 ≤ d ∧ 0 < a + d ∧ v = a / (a + d) * 100 := by
  unfold processJunction
  have hdq : 0 ≤ downTotal st.1 (get_downstream_edges G j) :=
    downTotal_nonneg st.1 _ fun k q hq =>
      le_trans (baseQU_nonneg G k) (hdom k q hq)
  exact foldl_stepEdge_su_inv G j _ _ hdq (incomingEdges G j) (fun x hx => hx)
    st hsome hdom hsu

theorem hierRaw_su_inv (G : Graph) (hWF : WF G) :
    ∀ k v, lookupQ (hierRaw G).2 k = some v →
      (∃ ed ∈ G.edges, findEdge G k.1 k.2 = some ed.2.2) ∧
      ∃ a d, baseQU G k ≤ a ∧ 0 ≤ d ∧ 0 < a + d ∧ v = a / (a + d) * 100 := by
  unfold hierRaw
  have main : ∀ (js : List String) (st : QMap × QMap),
      (∀ ed ∈ G.edges, (lookupQ st.1 (ed.1, ed.2.1)).isSome = true) →
      (∀ k q, lookupQ st.1 k = some q → baseQU G k ≤ q) →
      (∀ k v, lookupQ st.2 k = some v →
        (∃ ed ∈ G.edges, findEdge G k.1 k.2 = some ed.2.2) ∧
        ∃ a d, baseQU G k ≤ a ∧ 0 ≤ d ∧ 0 < a + d ∧ v = a / (a + d) * 100) →
      ∀ k v, lookupQ ((js.foldl (processJunction G) st)).2 k = some v →
        (∃ ed ∈ G.edges, findEdge G k.1 k.2 = some ed.2.2) ∧
        ∃ a d, baseQU G k ≤ a ∧ 0 ≤ d ∧ 0 < a + d ∧ v = a / (a + d) * 100 := by
    intro js
    induction js with
    | nil => exact fun st _ _ hsu => hsu
    | cons j rest ih =>
        intro st h1 h2 hsu
        simp only [List.foldl_cons]
        have hsd := processJunction_inv G j st h1 h2
        exact ih _ hsd.1 hsd.2 (processJunction_su_inv G j st h1 h2 hsu)
  exact main (sortedJunctions G) (baseSegments G, [])
    (fun ed hed => baseSegments_isSome G ed hed)
    (fun k q hq => le_of_eq (lookupQ_baseSegments_eq G hWF k q hq).symm)
    (fun k v hv => by cases hv)

theorem lookupQ_map_const (c : ℚ) (k : String × String) :
    ∀ m : QMap, ∀ v, lookupQ (m.map fun kv => (kv.1, c)) k = some v → v = c := by
  intro m
  induction m with
  | nil => intro v hv; cases hv
  | cons kv rest ih =>
      intro v hv
      rw [List.map_cons, lookupQ_cons] at hv
      by_cases h : kv.1 = k
      · rw [if_pos h] at hv
        cases hv
        rfl
      · rw [if_neg h] at hv
        exact ih v hv

/-- Claim C3 (amended): every value of the utilization mapping returned
by whole-graph hierarchical `estimate_bundle_diameter` lies in `[0,100]`
(and is strictly positive — hence in `(0,100]` — whenever every edge
carries at least one signal); each value has the form `a/(a+d) * 100`
where `a ≥ 0` is the updated edge's area at update time (its base area
if never previously aggregated), `d ≥ 0` the downstream contribution and
`a+d > 0`, so a value equals `100` **iff** its downstream contribution
was zero; and when no junction update happened at all, the mapping is
the default fill giving every `segment_diameters` key exactly `100`.
(An edge left untouched while some other edge was updated has **no**
utilization entry — see the counterexample.) -/
theorem c3_space_utilization (G : Graph) (hWF : WF G) :
    (∀ k v, lookupQ (hierPair G).2 k = some v →
      (0 ≤ v ∧ v ≤ 100) ∧
      ((∀ e ∈ G.edges, 1 ≤ sigCount e.2.2) → 0 < v) ∧
      (∃ a d, 0 ≤ a ∧ 0 ≤ d ∧ 0 < a + d ∧ v = a / (a + d) * 100 ∧
        (v = 100 ↔ d = 0))) ∧
    ((hierRaw G).2 = [] →
      (hierPair G).2 = (hierRaw G).1.map fun kv => (kv.1, (100 : ℚ))) := by
  constructor
  · intro k v hv
    unfold hierPair at hv
    by_cases hemp : (hierRaw G).2 = []
    · rw [if_pos hemp] at hv
      have hv100 := lookupQ_map_const 100 k _ v hv
      subst hv100
      refine ⟨⟨by norm_num, le_refl _⟩, fun _ => by norm_num, 1, 0, ?_⟩
      norm_num
    · rw [if_neg hemp] at hv
      obtain ⟨⟨ed, hed, hfe⟩, a, d, ha, hd, hpos, hform⟩ :=
        hierRaw_su_inv G hWF k v hv
      have ha0 : 0 ≤ a := le_trans (baseQU_nonneg G k) ha
      have hb : 0 ≤ v := by
        rw [hform]
        exact mul_nonneg (div_nonneg ha0 (le_of_lt hpos)) (by norm_num)
      have hub : v ≤ 100 := by
        rw [hform]
        have h1 : a / (a + d) ≤ 1 :=
          (div_le_one hpos).mpr (le_add_of_nonneg_right hd)
        nlinarith
      refine ⟨⟨hb, hub⟩, fun hs => ?_, a, d, ha0, hd, hpos, hform, ?_⟩
      · have hbpos : 0 < baseQU G k := by
          unfold baseQU
          rw [hfe]
          exact base_segment_q_pos ed.2.2 (hs ed hed)
        have hapos : 0 < a := lt_of_lt_of_le hbpos ha
        rw [hform]
        exact mul_pos (div_pos hapos hpos) (by norm_num)
      · constructor
        · intro h100
          rw [hform] at h100
          have h1 : a / (a + d) = 1 := by
            have h2 : a / (a + d) * 100 = 1 * 100 := by rw [h100]; ring
            exact mul_right_cancel₀ (by norm_num) h2
          have h3 : a = a + d := (div_eq_one_iff_eq (ne_of_gt hpos)).mp h1
          linarith
        · intro hd0
          subst hd0
          rw [hform]
          have : a ≠ 0 := by
            intro h0
            rw [h0] at hpos
            norm_num at hpos
          rw [add_zero, div_self this, one_mul]
  · intro hemp
    unfold hierPair
    rw [if_pos hemp]

/-- Claim C3, counterexample: in `triJ0` the cycle-closing zero-signal
edge `j--b` receives utilization exactly `0` (outside `(0, 100]`), and
the pendant edge `j--c` — an edge with no downstream contribution —
has **no** utilization entry at all instead of `100`. -/
theorem c3_counterexample :
    lookupQ (hierPair triJ0).2 ("j", "b") = some 0 ∧
    ¬ ((0 : ℚ) < 0) ∧
    has_edge triJ0 "j" "c" = true ∧
    lookupQ (hierPair triJ0).2 ("j", "c") = none ∧
    lookupQ (hierPair triJ0).2 ("c", "j") = none :=
  ⟨by decide!, by norm_num, by decide!, by decide!, by decide!⟩

/-- Claim C3, witness: on the sample harness (a tree, so the default
fill fires) the utilization entry of `("ECU","Junction1")` is `100`,
which satisfies all the per-value conclusions of the amended theorem. -/
theorem c3_space_utilization_witness :
    lookupQ (hierPair load_sample_data).2 ("ECU", "Junction1") = some 100 ∧
    ((0 ≤ (100 : ℚ) ∧ (100 : ℚ) ≤ 100) ∧
      ((∀ e ∈ load_sample_data.edges, 1 ≤ sigCount e.2.2) → 0 < (100 : ℚ)) ∧
      (∃ a d, 0 ≤ a ∧ 0 ≤ d ∧ 0 < a + d ∧ (100 : ℚ) = a / (a + d) * 100 ∧
        ((100 : ℚ) = 100 ↔ d = 0))) :=
  have h : lookupQ (hierPair load_sample_data).2 ("ECU", "Junction1") =
      some 100 := by decide!
  ⟨h, (c3_space_utilization load_sample_data (by decide!)).1
    ("ECU", "Junction1") 100 h⟩

/-! ## C6 and C9: the DFS `get_downstream_edges` -/

theorem dfs_succ_eq (G : Graph) (fuel : Nat) (current : String)
    (parent : Option String) (visited : List String)
    (acc : List (String × String)) :
    dfs G (fuel + 1) current parent visited acc =
      (neighbors G current).foldl (dfsStep G fuel current parent)
        (some (setAdd visited current, acc)) := rfl

theorem foldl_dfsStep_none (G : Graph) (fuel : Nat) (current : String)
    (parent : Option String) :
    ∀ l : List String, l.foldl (dfsStep G fuel current parent) none = none := by
  intro l
  induction l with
  | nil => rfl
  | cons n rest ih =>
      rw [List.foldl_cons]
      exact ih

theorem foldl_dfsStep_eq_loop (G : Graph) (fuel : Nat) (current : String)
    (parent : Option String) :
    ∀ (l : List String) (st : List String × List (String × String)),
      l.foldl (dfsStep G fuel current parent) (some st) =
        dfsLoop G fuel current parent l st := by
  intro l
  induction l with
  | nil => intro st; rfl
  | cons n rest ih =>
      rintro ⟨vis, ac⟩
      rw [List.foldl_cons]
      show rest.foldl (dfsStep G fuel current parent)
        (dfsStep G fuel current parent (some (vis, ac)) n) =
        dfsLoop G fuel current parent (n :: rest) (vis, ac)
      simp only [dfsStep, dfsLoop]
      by_cases h1 : some n = parent
      · rw [if_pos h1, if_pos h1]
        exact ih (vis, ac)
      · rw [if_neg h1, if_neg h1]
        by_cases h2 : n ∈ vis
        · rw [if_pos h2, if_pos h2]
          exact ih (vis, ac)
        · rw [if_neg h2, if_neg h2]
          cases hres : dfs G fuel n (some current) vis (ac ++ [(current, n)]) with
          | none => exact foldl_dfsStep_none G fuel current parent rest
          | some st2 => exact ih st2

theorem dfs_eq_loop (G : Graph) (fuel : Nat) (current : String)
    (parent : Option String) (visited : List String)
    (acc : List (String × String)) :
    dfs G (fuel + 1) current parent visited acc =
      dfsLoop G fuel current parent (neighbors G current)
        (setAdd visited current, acc) := by
  rw [dfs_succ_eq]
  exact foldl_dfsStep_eq_loop G fuel current parent _ _

theorem Reaches.trans {G : Graph} {a b c : String} (h1 : Reaches G a b)
    (h2 : Reaches G b c) : Reaches G a c := by
  induction h2 with
  | refl => exact h1
  | tail _ hn ih => exact Reaches.tail ih hn

theorem Grows.append {s : List String} {E1 E2 : List (String × String)}
    (h1 : Grows s E1) (h2 : Grows (s ++ E1.map (fun e => e.2)) E2) :
    Grows s (E1 ++ E2) := by
  induction h1 with
  | nil s =>
      rw [List.map_nil, List.append_nil] at h2
      exact h2
  | cons hm _ ih =>
      refine Grows.cons hm (ih ?_)
      rw [List.append_assoc, List.singleton_append]
      exact h2

theorem dfsLoop_spec (G : Graph) (fuel : Nat) (hmain : DfsSpec G fuel) :
    ∀ (ns : List String) (current : String) (parent : Option String)
      (visited : List String) (acc : List (String × String))
      (vis2 : List String) (acc2 : List (String × String)),
      dfsLoop G fuel current parent ns (visited, acc) = some (vis2, acc2) →
      current ∈ visited →
      (parent = none ∨ ∃ p, parent = some p ∧ p ∈ visited) →
      (∀ n ∈ ns, n ∈ neighbors G current) →
      ∃ E, acc2 = acc ++ E ∧
        vis2 = visited ++ E.map (fun e => e.2) ∧
        Grows visited E ∧
        (∀ e ∈ E, e.2 ∈ neighbors G e.1) ∧
        (∀ e ∈ E, Reaches G current e.1 ∧ Reaches G current e.2) ∧
        (visited.Nodup → vis2.Nodup) ∧
        (∀ x ∈ vis2, ¬ x ∈ visited → ∀ nb ∈ neighbors G x, nb ∈ vis2) ∧
        (∀ n ∈ ns, n ∈ vis2 ∨ some n = parent) := by
  intro ns
  induction ns with
  | nil =>
      intro current parent visited acc vis2 acc2 hloop hcur hpar hns
      simp only [dfsLoop, Option.some.injEq, Prod.mk.injEq] at hloop
      obtain ⟨hv, ha⟩ := hloop
      subst hv
      subst ha
      refine ⟨[], by simp, by simp, Grows.nil visited, by simp, by simp,
        fun h => h, ?_, by simp⟩
      intro x hx hnx
      exact absurd hx hnx
  | cons n rest ih =>
      intro current parent visited acc vis2 acc2 hloop hcur hpar hns
      simp only [dfsLoop] at hloop
      by_cases h1 : some n = parent
      · rw [if_pos h1] at hloop
        obtain ⟨E, e1, e2, e3, e4, e5, e6, e7, e8⟩ :=
          ih current parent visited acc vis2 acc2 hloop hcur hpar
            (fun m hm => hns m (List.mem_cons_of_mem _ hm))
        refine ⟨E, e1, e2, e3, e4, e5, e6, e7, ?_⟩
        intro m hm
        rcases List.mem_cons.mp hm with rfl | hm2
        · exact Or.inr h1
        · exact e8 m hm2
      · rw [if_neg h1] at hloop
        by_cases h2 : n ∈ visited
        · rw [if_pos h2] at hloop
          obtain ⟨E, e1, e2, e3, e4, e5, e6, e7, e8⟩ :=
            ih current parent visited acc vis2 acc2 hloop hcur hpar
              (fun m hm => hns m (List.mem_cons_of_mem _ hm))
          refine ⟨E, e1, e2, e3, e4, e5, e6, e7, ?_⟩
          intro m hm
          rcases List.mem_cons.mp hm with rfl | hm2
          · exact Or.inl (e2 ▸ List.mem_append_left _ h2)
          · exact e8 m hm2
        · rw [if_neg h2] at hloop
          cases hd : dfs G fuel n (some current) visited (acc ++ [(current, n)]) with
          | none =>
              rw [hd] at hloop
              cases hloop
          | some st1 =>
              rw [hd] at hloop
              obtain ⟨vis1, acc1⟩ := st1
              obtain ⟨E1, f1, f2, f3, f4, f5, f6, f7⟩ :=
                hmain n (some current) visited (acc ++ [(current, n)])
                  vis1 acc1 hd h2 (Or.inr ⟨current, rfl, hcur⟩)
              have hcur1 : current ∈ vis1 := by
                rw [f2]
                exact List.mem_append_left _ hcur
              have hpar1 : parent = none ∨ ∃ p, parent = some p ∧ p ∈ vis1 := by
                rcases hpar with hp | ⟨p, hp, hpv⟩
                · exact Or.inl hp
                · exact Or.inr ⟨p, hp, by rw [f2]; exact List.mem_append_left _ hpv⟩
              obtain ⟨E2, g1, g2, g3, g4, g5, g6, g7, g8⟩ :=
                ih current parent vis1 acc1 vis2 acc2 hloop hcur1 hpar1
                  (fun m hm => hns m (List.mem_cons_of_mem _ hm))
              have hnmem : n ∈ neighbors G current := hns n (List.mem_cons_self _ _)
              have hreach_n : Reaches G current n :=
                Reaches.tail (Reaches.refl current) hnmem
              have hvis1alt : vis1 = (visited ++ [n]) ++ E1.map (fun e => e.2) := by
                rw [f2, List.append_assoc, List.singleton_append]
              refine ⟨(current, n) :: (E1 ++ E2), ?_, ?_, ?_, ?_, ?_, ?_, ?_, ?_⟩
              · rw [g1, f1]
                simp [List.append_assoc]
              · rw [g2, f2]
                simp [List.append_assoc, List.map_append]
              · refine Grows.cons hcur ?_
                refine Grows.append f3 ?_
                rw [← hvis1alt]
                exact g3
              · intro e he
                rcases List.mem_cons.mp he with rfl | he2
                · exact hnmem
                · rcases List.mem_append.mp he2 with h | h
                  · exact f4 e h
                  · exact g4 e h
              · intro e he
                rcases List.mem_cons.mp he with rfl | he2
                · exact ⟨Reaches.refl current, hreach_n⟩
                · rcases List.mem_append.mp he2 with h | h
                  · exact ⟨hreach_n.trans (f5 e h).1, hreach_n.trans (f5 e h).2⟩
                  · exact g5 e h
              · exact fun hnd => g6 (f6 hnd)
              · intro x hx hnx nb hnb
                by_cases hx1 : x ∈ vis1
                · have := f7 x hx1 hnx nb hnb
                  rw [g2]
                  exact List.mem_append_left _ this
                · exact g7 x hx hx1 nb hnb
              · intro m hm
                rcases List.mem_cons.mp hm with rfl | hm2
                · refine Or.inl ?_
                  rw [g2]
                  refine List.mem_append_left _ ?_
                  rw [f2]
                  exact List.mem_append_right _ (List.mem_cons_self _ _)
                · exact g8 m hm2

theorem dfs_spec (G : Graph) : ∀ fuel, DfsSpec G fuel := by
  intro fuel
  induction fuel with
  | zero =>
      intro current parent visited acc vis2 acc2 hdfs
      rw [show dfs G 0 current parent visited acc = none from rfl] at hdfs
      cases hdfs
  | succ fuel ih =>
      intro current parent visited acc vis2 acc2 hdfs hcur hpar
      rw [dfs_eq_loop] at hdfs
      have hsetadd : setAdd visited current = visited ++ [current] := by
        unfold setAdd
        rw [if_neg hcur]
      rw [hsetadd] at hdfs
      have hpar2 : parent = none ∨
          ∃ p, parent = some p ∧ p ∈ visited ++ [current] := by
        rcases hpar with hp | ⟨p, hp, hpv⟩
        · exact Or.inl hp
        · exact Or.inr ⟨p, hp, List.mem_append_left _ hpv⟩
      obtain ⟨E, e1, e2, e3, e4, e5, e6, e7, e8⟩ :=
        dfsLoop_spec G fuel ih (neighbors G current) current parent
          (visited ++ [current]) acc vis2 acc2 hdfs
          (List.mem_append_right _ (List.mem_cons_self _ _)) hpar2 (fun _ h => h)
      have hvis : vis2 = visited ++ current :: E.map (fun e => e.2) := by
        rw [e2, List.append_assoc, List.singleton_append]
      refine ⟨E, e1, hvis, ?_, e4, e5, ?_, ?_⟩
      · exact e3
      · intro hnd
        refine e6 ?_
        rw [List.nodup_append]
        refine ⟨hnd, List.nodup_singleton _, ?_⟩
        intro a ha hac
        rw [List.mem_singleton] at hac
        subst hac
        exact hcur ha
      · intro x hx hnx nb hnb
        by_cases hxc : x = current
        · subst hxc
          rcases e8 nb hnb with h | h
          · exact h
          · rcases hpar2 with hp | ⟨p, hp, hpv⟩
            · rw [hp] at h
              cases h
            · rw [hp] at h
              cases h
              rw [e2]
              exact List.mem_append_left _ hpv
        · refine e7 x hx ?_ nb hnb
          intro hmem
          rcases List.mem_append.mp hmem with h | h
          · exact hnx h
          · rw [List.mem_singleton] at h
            exact hxc h

theorem neighbors_subset_nodes (G : Graph) (hWF : WF G) :
    ∀ x n, n ∈ neighbors G x → n ∈ nodeNames G := by
  intro x n hn
  unfold neighbors at hn
  rw [List.mem_filterMap] at hn
  obtain ⟨e, he, hfe⟩ := hn
  obtain ⟨h1, h2, _, _⟩ := hWF.2.1 e he
  by_cases hx : e.1 = x
  · rw [if_pos hx, Option.some.injEq] at hfe
    rw [← hfe]
    exact h2
  · rw [if_neg hx] at hfe
    by_cases hx2 : e.2.1 = x
    · rw [if_pos hx2, Option.some.injEq] at hfe
      rw [← hfe]
      exact h1
    · rw [if_neg hx2] at hfe
      cases hfe

theorem reaches_mem_nodes (G : Graph) (hWF : WF G) {a b : String}
    (ha : a ∈ nodeNames G) (hr : Reaches G a b) : b ∈ nodeNames G := by
  induction hr with
  | refl => exact ha
  | tail _ hnb _ => exact neighbors_subset_nodes G hWF _ _ hnb

theorem dfsLoop_succ (G : Graph) (fuel : Nat) (hWF : WF G)
    (hS : DfsSucc G fuel) (hSpec : DfsSpec G fuel) :
    ∀ (ns : List String) (current : String) (parent : Option String)
      (vis : List String) (ac : List (String × String)),
      current ∈ vis →
      (∀ n ∈ ns, n ∈ neighbors G current) →
      (∀ x ∈ vis, x ∈ nodeNames G) →
      vis.Nodup →
      (nodeNames G).length ≤ fuel + vis.length →
      ∃ res, dfsLoop G fuel current parent ns (vis, ac) = some res := by
  intro ns
  induction ns with
  | nil =>
      intro current parent vis ac _ _ _ _ _
      exact ⟨(vis, ac), rfl⟩
  | cons n rest ih =>
      intro current parent vis ac hcur hns hsub hnd hfuel
      simp only [dfsLoop]
      by_cases h1 : some n = parent
      · rw [if_pos h1]
        exact ih current parent vis ac hcur
          (fun m hm => hns m (List.mem_cons_of_mem _ hm)) hsub hnd hfuel
      · rw [if_neg h1]
        by_cases h2 : n ∈ vis
        · rw [if_pos h2]
          exact ih current parent vis ac hcur
            (fun m hm => hns m (List.mem_cons_of_mem _ hm)) hsub hnd hfuel
        · rw [if_neg h2]
          have hnn : n ∈ nodeNames G :=
            neighbors_subset_nodes G hWF current n (hns n (List.mem_cons_self _ _))
          obtain ⟨⟨vis1, acc1⟩, hd⟩ :=
            hS n (some current) vis (ac ++ [(current, n)]) hnn h2 hsub hnd
              (le_trans hfuel (Nat.add_le_add_left (Nat.le_refl _) _))
          rw [hd]
          obtain ⟨E1, f1, f2, f3, f4, f5, f6, f7⟩ :=
            hSpec n (some current) vis (ac ++ [(current, n)]) vis1 acc1 hd h2
              (Or.inr ⟨current, rfl, hcur⟩)
          have hcur1 : current ∈ vis1 := by
            rw [f2]
            exact List.mem_append_left _ hcur
          have hsub1 : ∀ x ∈ vis1, x ∈ nodeNames G := by
            intro x hx
            rw [f2] at hx
            rcases List.mem_append.mp hx with h | h
            · exact hsub x h
            · rcases List.mem_cons.mp h with rfl | h
              · exact hnn
              · rw [List.mem_map] at h
                obtain ⟨e, he, hev⟩ := h
                rw [← hev]
                exact neighbors_subset_nodes G hWF e.1 e.2 (f4 e he)
          have hnd1 : vis1.Nodup := f6 hnd
          have hlen1 : vis.length ≤ vis1.length := by
            rw [f2, List.length_append]
            exact Nat.le_add_right _ _
          exact ih current parent vis1 acc1 hcur1
            (fun m hm => hns m (List.mem_cons_of_mem _ hm)) hsub1 hnd1
            (le_trans hfuel (Nat.add_le_add_left hlen1 _))

theorem dfs_succ (G : Graph) (hWF : WF G) : ∀ fuel, DfsSucc G fuel := by
  intro fuel
  induction fuel with
  | zero =>
      intro current parent visited acc hcur hncur hsub hnd hfuel
      exfalso
      have hnd2 : (current :: visited).Nodup := List.nodup_cons.mpr ⟨hncur, hnd⟩
      have hsub2 : (current :: visited) ⊆ nodeNames G := by
        intro x hx
        rcases List.mem_cons.mp hx with rfl | hx
        · exact hcur
        · exact hsub x hx
      have hle : visited.length + 1 ≤ (nodeNames G).length := by
        have := (List.subperm_of_subset hnd2 hsub2).length_le
        simpa using this
      omega
  | succ fuel ih =>
      intro current parent visited acc hcur hncur hsub hnd hfuel
      rw [dfs_eq_loop]
      have hsetadd : setAdd visited current = visited ++ [current] := by
        unfold setAdd
        rw [if_neg hncur]
      rw [hsetadd]
      have hnd2 : (visited ++ [current]).Nodup := by
        rw [List.nodup_append]
        refine ⟨hnd, List.nodup_singleton _, ?_⟩
        intro a ha hac
        rw [List.mem_singleton] at hac
        subst hac
        exact hncur ha
      refine dfsLoop_succ G fuel hWF ih (dfs_spec G fuel) (neighbors G current)
        current parent (visited ++ [current]) acc
        (List.mem_append_right _ (List.mem_cons_self _ _)) (fun _ h => h) ?_ hnd2 ?_
      · intro x hx
        rcases List.mem_append.mp hx with h | h
        · exact hsub x h
        · rw [List.mem_singleton] at h
          subst h
          exact hcur
      · rw [List.length_append, List.length_singleton]
        omega

theorem grows_no_reverse (s : List String) (E : List (String × String))
    (hg : Grows s E) (hnd : (s ++ E.map (fun e => e.2)).Nodup) :
    ∀ e ∈ E, ¬ (e.2, e.1) ∈ E := by
  induction hg with
  | nil =>
      intro e he
      cases he
  | cons hmem hrec ih =>
      rename_i s e E
      have hdisj : s.Disjoint (e.2 :: E.map (fun e => e.2)) := by
        rw [List.map_cons] at hnd
        exact (List.nodup_append.mp hnd).2.2
      have hnd2 : ((s ++ [e.2]) ++ E.map (fun e => e.2)).Nodup := by
        rw [List.append_assoc, List.singleton_append]
        rw [List.map_cons] at hnd
        exact hnd
      intro f hf hrev
      rcases List.mem_cons.mp hf with rfl | hf2
      · rcases List.mem_cons.mp hrev with h | h
        · have h21 : f.2 = f.1 := congrArg Prod.fst h
          refine hdisj hmem ?_
          rw [← h21]
          exact List.mem_cons_self _ _
        · have : f.1 ∈ E.map (fun e => e.2) := by
            have := List.mem_map_of_mem (fun e => e.2) h
            exact this
          exact hdisj hmem (List.mem_cons_of_mem _ this)
      · rcases List.mem_cons.mp hrev with h | h
        · have h1 : e.1 = f.2 := by rw [← h]
          have : f.2 ∈ E.map (fun e => e.2) := List.mem_map_of_mem _ hf2
          rw [← h1] at this
          exact hdisj hmem (List.mem_cons_of_mem _ this)
        · exact ih hnd2 f hf2 h

theorem downstream_spec (G : Graph) (root : String) (hWF : WF G)
    (hroot : root ∈ nodeNames G) :
    ∃ vis es,
      dfs G (nodeNames G).length root none [] [] = some (vis, es) ∧
      get_downstream_edges G root = es ∧
      vis = root :: es.map (fun e => e.2) ∧
      vis.Nodup ∧
      es.Nodup ∧
      (∀ e ∈ es, e.2 ∈ neighbors G e.1) ∧
      (∀ e ∈ es, ¬ (e.2, e.1) ∈ es) ∧
      (∀ x, x ∈ vis ↔ Reaches G root x) ∧
      es.length + 1 = vis.length := by
  obtain ⟨⟨vis, es⟩, hd⟩ :=
    dfs_succ G hWF (nodeNames G).length root none [] []
      hroot (by simp) (by simp) List.nodup_nil (by simp)
  obtain ⟨E, e1, e2, e3, e4, e5, e6, e7⟩ :=
    dfs_spec G (nodeNames G).length root none [] [] vis es hd
      (by simp) (Or.inl rfl)
  rw [List.nil_append] at e1 e2 e3
  subst e1
  have hndvis : vis.Nodup := e6 List.nodup_nil
  have hndmap : (es.map (fun e => e.2)).Nodup := by
    have := hndvis
    rw [e2] at this
    exact (List.nodup_cons.mp this).2
  have hndE : es.Nodup := hndmap.of_map _
  have hgnd : (([root] ++ es.map (fun e => e.2))).Nodup := by
    rw [List.singleton_append, ← e2]
    exact hndvis
  have hclos : ∀ x ∈ vis, ∀ nb ∈ neighbors G x, nb ∈ vis := by
    intro x hx nb hnb
    exact e7 x hx (by simp) nb hnb
  have hrootvis : root ∈ vis := by
    rw [e2]
    exact List.mem_cons_self _ _
  refine ⟨vis, es, hd, ?_, e2, hndvis, hndE, e4, grows_no_reverse _ _ e3 hgnd, ?_, ?_⟩
  · unfold get_downstream_edges
    rw [hd]
  · intro x
    constructor
    · intro hx
      rw [e2] at hx
      rcases List.mem_cons.mp hx with rfl | hx2
      · exact Reaches.refl x
      · rw [List.mem_map] at hx2
        obtain ⟨e, he, hev⟩ := hx2
        rw [← hev]
        exact (e5 e he).2
    · intro hr
      induction hr with
      | refl => exact hrootvis
      | tail _ hnb ih => exact hclos _ ih _ hnb
  · rw [e2, List.length_cons, List.length_map]

/-! ## C6: termination and shape of `get_downstream_edges` -/

/-- Claim C6: on a well-formed graph (cyclic or not) the DFS of
`get_downstream_edges(root)` never runs out of its node-count fuel (so
the traversal terminates normally), the globally tracked visited list is
the root followed by the target of each returned edge in discovery order
and contains no duplicates (no node is ever entered twice, even via a
different parent), each returned edge appears at most once, the reversed
edge back to a traversal parent is never returned, the visited list is
exactly the set of nodes reachable from `root`, and the number of
returned edges equals the number of reachable nodes minus one (in
particular this holds for tree-shaped graphs). -/
theorem c6_downstream_edges (G : Graph) (root : String) (hWF : WF G)
    (hroot : root ∈ nodeNames G) :
    ∃ vis es,
      dfs G (nodeNames G).length root none [] [] = some (vis, es) ∧
      get_downstream_edges G root = es ∧
      vis = root :: es.map (fun e => e.2) ∧
      vis.Nodup ∧
      es.Nodup ∧
      (∀ e ∈ es, e.2 ∈ neighbors G e.1) ∧
      (∀ e ∈ es, ¬ (e.2, e.1) ∈ es) ∧
      (∀ x, x ∈ vis ↔ Reaches G root x) ∧
      es.length + 1 = vis.length :=
  downstream_spec G root hWF hroot

/-- Claim C6, witness: the shape theorem instantiated on the concrete
3-cycle `triJ` at its junction `j`. -/
theorem c6_downstream_edges_witness :
    ∃ vis es,
      dfs triJ (nodeNames triJ).length "j" none [] [] = some (vis, es) ∧
      get_downstream_edges triJ "j" = es ∧
      vis = "j" :: es.map (fun e => e.2) ∧
      vis.Nodup ∧
      es.Nodup ∧
      (∀ e ∈ es, e.2 ∈ neighbors triJ e.1) ∧
      (∀ e ∈ es, ¬ (e.2, e.1) ∈ es) ∧
      (∀ x, x ∈ vis ↔ Reaches triJ "j" x) ∧
      es.length + 1 = vis.length :=
  c6_downstream_edges triJ "j" (by decide!) (by decide!)

/-! ## C9: spanning traversal on connected graphs and the junction sort -/

theorem downstream_length_connected (G : Graph) (hWF : WF G)
    (hconn : Connected G) (n : String) (hn : n ∈ nodeNames G) :
    (get_downstream_edges G n).length + 1 = (nodeNames G).length := by
  obtain ⟨vis, es, hd, hes, hvis, hndv, _, _, _, hiff, hlen⟩ :=
    downstream_spec G n hWF hn
  have hsub1 : vis ⊆ nodeNames G := fun x hx =>
    reaches_mem_nodes G hWF hn ((hiff x).mp hx)
  have hsub2 : nodeNames G ⊆ vis := fun x hx => (hiff x).mpr (hconn n hn x hx)
  have h1 := (List.subperm_of_subset hndv hsub1).length_le
  have h2 := (List.subperm_of_subset hWF.1 hsub2).length_le
  rw [hes]
  omega

theorem insertByKey_head_le (key : String → ℕ) (x : String) (l : List String)
    (h : ∀ y ∈ l, key x ≤ key y) : insertByKey key x l = x :: l := by
  cases l with
  | nil => rfl
  | cons y ys =>
      unfold insertByKey
      rw [if_pos (h y (List.mem_cons_self _ _))]

theorem sortByKey_const (key : String → ℕ) (c : ℕ) :
    ∀ l : List String, (∀ x ∈ l, key x = c) → sortByKey key l = l := by
  intro l
  induction l with
  | nil =>
      intro _
      rfl
  | cons x xs ih =>
      intro h
      unfold sortByKey
      rw [ih (fun y hy => h y (List.mem_cons_of_mem _ hy))]
      refine insertByKey_head_le key x xs ?_
      intro y hy
      rw [h x (List.mem_cons_self _ _), h y (List.mem_cons_of_mem _ hy)]

theorem junctionFilter_subset (G : Graph) :
    ∀ j ∈ junctionFilter G, j ∈ nodeNames G := by
  intro j hj
  unfold junctionFilter at hj
  rw [List.mem_filterMap] at hj
  obtain ⟨nd, hnd, hif⟩ := hj
  by_cases hc : nd.2 = some "junction" ∨ nd.2 = some "sub_junction"
  · rw [if_pos hc, Option.some.injEq] at hif
    rw [← hif]
    exact List.mem_map_of_mem _ hnd
  · rw [if_neg hc] at hif
    cases hif

/-- Claim C9: on a well-formed connected graph (cyclic or not),
`get_downstream_edges(n)` returns exactly (number of nodes − 1) edges
for EVERY node `n` — it spans the whole connected component, not only
branches below `n` — so all junctions share the same downstream-edge
count and the stable leaf-before-root sort leaves the junction list in
its original node-insertion order. -/
theorem c9_spanning_sort (G : Graph) (hWF : WF G) (hconn : Connected G) :
    (∀ n ∈ nodeNames G,
      (get_downstream_edges G n).length + 1 = (nodeNames G).length) ∧
    sortedJunctions G = junctionFilter G := by
  refine ⟨fun n hn => downstream_length_connected G hWF hconn n hn, ?_⟩
  unfold sortedJunctions
  refine sortByKey_const _ ((nodeNames G).length - 1) _ ?_
  intro j hj
  have := downstream_length_connected G hWF hconn j (junctionFilter_subset G j hj)
  omega

theorem connected_triJ : Connected triJ := by
  have hja : Reaches triJ "j" "a" := Reaches.tail (Reaches.refl _) (by decide!)
  have hjb : Reaches triJ "j" "b" := Reaches.tail (Reaches.refl _) (by decide!)
  have haj : Reaches triJ "a" "j" := Reaches.tail (Reaches.refl _) (by decide!)
  have hab : Reaches triJ "a" "b" := Reaches.tail (Reaches.refl _) (by decide!)
  have hba : Reaches triJ "b" "a" := Reaches.tail (Reaches.refl _) (by decide!)
  have hbj : Reaches triJ "b" "j" := Reaches.tail (Reaches.refl _) (by decide!)
  intro x hx y hy
  simp only [nodeNames, triJ, List.map_cons, List.map_nil, List.mem_cons,
    List.not_mem_nil, or_false] at hx hy
  rcases hx with rfl | rfl | rfl <;> rcases hy with rfl | rfl | rfl <;>
    first
      | exact Reaches.refl _
      | assumption

/-- Claim C9, witness: the spanning/sort theorem instantiated on the
concrete connected 3-cycle `triJ`. -/
theorem c9_spanning_sort_witness :
    (∀ n ∈ nodeNames triJ,
      (get_downstream_edges triJ n).length + 1 = (nodeNames triJ).length) ∧
    sortedJunctions triJ = junctionFilter triJ :=
  c9_spanning_sort triJ (by decide!) connected_triJ

/-! ## C5: the path finder -/

theorem mem_neighbors_iff (G : Graph) (u v : String) :
    v ∈ neighbors G u ↔ has_edge G u v = true := by
  unfold neighbors has_edge
  rw [List.mem_filterMap, List.any_eq_true]
  constructor
  · rintro ⟨e, he, hfe⟩
    refine ⟨e, he, ?_⟩
    unfold edgeMatches
    by_cases h1 : e.1 = u
    · rw [if_pos h1, Option.some.injEq] at hfe
      simp [h1, hfe]
    · rw [if_neg h1] at hfe
      by_cases h2 : e.2.1 = u
      · rw [if_pos h2, Option.some.injEq] at hfe
        simp [h2, hfe]
      · rw [if_neg h2] at hfe
        cases hfe
  · rintro ⟨e, he, hm⟩
    refine ⟨e, he, ?_⟩
    unfold edgeMatches at hm
    simp only [Bool.or_eq_true, Bool.and_eq_true, decide_eq_true_eq] at hm
    rcases hm with ⟨h1, h2⟩ | ⟨h1, h2⟩
    · rw [if_pos h1, h2]
    · by_cases hu : e.1 = u
      · rw [if_pos hu]
        exact congrArg some (h2.trans ((hu.symm).trans h1))
      · rw [if_neg hu, if_pos h2, Option.some.injEq]
        exact h1

theorem findEdge_some_mem (G : Graph) {u v : String} {d : EdgeData}
    (h : findEdge G u v = some d) : ∃ e ∈ G.edges, e.2.2 = d := by
  unfold findEdge at h
  obtain ⟨e, he, hfe⟩ := List.exists_of_findSome?_eq_some h
  refine ⟨e, he, ?_⟩
  by_cases hm : edgeMatches u v e = true
  · rw [if_pos hm, Option.some.injEq] at hfe
    exact hfe
  · rw [if_neg hm] at hfe
    cases hfe

theorem edgeWeight_nonneg (G : Graph) (hWF : WF G) (u v : String) :
    0 ≤ edgeWeight G u v := by
  unfold edgeWeight
  cases hfe : findEdge G u v with
  | none => exact le_refl 0
  | some d =>
      obtain ⟨e, he, hd⟩ := findEdge_some_mem G hfe
      show 0 ≤ d.len.getD 1
      cases hl : d.len with
      | none => norm_num
      | some l =>
          have h0 : 0 ≤ l := by
            refine (hWF.2.1 e he).2.2.2 l ?_
            rw [hd, hl]
            exact rfl
          simpa using h0

theorem walkWeight_nonneg (G : Graph) (hWF : WF G) :
    ∀ p : List String, 0 ≤ walkWeight G p := by
  intro p
  induction p with
  | nil => exact le_refl 0
  | cons u rest ih =>
      cases rest with
      | nil => exact le_refl 0
      | cons v rest2 =>
          exact add_nonneg (edgeWeight_nonneg G hWF u v) ih

theorem walkWeight_append (G : Graph) (x : String) :
    ∀ (a b : List String),
      walkWeight G (a ++ x :: b) =
        walkWeight G (a ++ [x]) + walkWeight G (x :: b) := by
  intro a
  induction a with
  | nil =>
      intro b
      simp [walkWeight]
  | cons u a2 ih =>
      intro b
      cases a2 with
      | nil =>
          simp [walkWeight]
      | cons v a3 =>
          show edgeWeight G u v + walkWeight G (v :: a3 ++ x :: b) =
            walkWeight G ((u :: v :: a3) ++ [x]) + walkWeight G (x :: b)
          rw [ih b]
          show edgeWeight G u v + (walkWeight G (v :: a3 ++ [x]) +
            walkWeight G (x :: b)) = edgeWeight G u v +
            walkWeight G (v :: a3 ++ [x]) + walkWeight G (x :: b)
          ring

theorem not_nodup_split {α : Type} :
    ∀ (l : List α), ¬ l.Nodup →
      ∃ pre x mid post, l = pre ++ x :: (mid ++ x :: post) := by
  intro l
  induction l with
  | nil =>
      intro h
      exact absurd List.nodup_nil h
  | cons u l2 ih =>
      intro h
      rw [List.nodup_cons] at h
      by_cases hu : u ∈ l2
      · obtain ⟨mid, post, hsplit⟩ := List.append_of_mem hu
        exact ⟨[], u, mid, post, by rw [hsplit]; rfl⟩
      · have h2 : ¬ l2.Nodup := fun hnd => h ⟨hu, hnd⟩
        obtain ⟨pre, x, mid, post, hsplit⟩ := ih h2
        exact ⟨u :: pre, x, mid, post, by rw [hsplit]; rfl⟩

theorem exists_nodup_walk (G : Graph) (hWF : WF G) :
    ∀ (n : Nat) (p : List String) (s t : String), p.length ≤ n →
      IsWalk G p s t →
      ∃ q, IsWalk G q s t ∧ q.Nodup ∧ walkWeight G q ≤ walkWeight G p := by
  intro n
  induction n with
  | zero =>
      intro p s t hlen hw
      rw [Nat.le_zero, List.length_eq_zero] at hlen
      subst hlen
      cases hw.1
  | succ n ih =>
      intro p s t hlen hw
      by_cases hnd : p.Nodup
      · exact ⟨p, hw, hnd, le_refl _⟩
      · obtain ⟨pre, x, mid, post, hsplit⟩ := not_nodup_split p hnd
        subst hsplit
        obtain ⟨hw1, hw2, hw3⟩ := hw
        have hhead : (pre ++ x :: post).head? = some s := by
          cases pre with
          | nil => exact hw1
          | cons a pre2 => exact hw1
        have hlast : (pre ++ x :: post).getLast? = some t := by
          rw [List.getLast?_append_of_ne_nil pre (List.cons_ne_nil x post)]
          have hp : pre ++ x :: (mid ++ x :: post) =
              (pre ++ x :: mid) ++ x :: post := by
            rw [List.append_assoc, List.cons_append]
          rw [hp, List.getLast?_append_of_ne_nil _ (List.cons_ne_nil x post)]
            at hw2
          exact hw2
        have hsplit2 : pre ++ x :: (mid ++ x :: post) =
            (pre ++ [x]) ++ (mid ++ x :: post) := by
          rw [List.append_assoc, List.singleton_append]
        rw [hsplit2, List.chain'_append] at hw3
        obtain ⟨c1, c2, c3⟩ := hw3
        have hsplit3 : mid ++ x :: post = (mid ++ [x]) ++ post := by
          rw [List.append_assoc, List.singleton_append]
        rw [hsplit3, List.chain'_append] at c2
        obtain ⟨c4, c5, c6⟩ := c2
        have hchain : List.Chain' (fun u v => has_edge G u v = true)
            (pre ++ x :: post) := by
          have : pre ++ x :: post = (pre ++ [x]) ++ post := by
            rw [List.append_assoc, List.singleton_append]
          rw [this, List.chain'_append]
          refine ⟨c1, c5, ?_⟩
          intro a ha b hb
          rw [List.getLast?_concat pre, Option.mem_def, Option.some.injEq] at ha
          refine c6 a ?_ b hb
          rw [List.getLast?_concat mid, Option.mem_def, Option.some.injEq]
          exact ha
        have hwq : walkWeight G (pre ++ x :: post) ≤
            walkWeight G (pre ++ x :: (mid ++ x :: post)) := by
          rw [walkWeight_append G x pre (mid ++ x :: post),
            walkWeight_append G x pre post]
          have hx2 : walkWeight G (x :: (mid ++ x :: post)) =
              walkWeight G ((x :: mid) ++ x :: post) := by
            rw [List.cons_append]
          rw [hx2, walkWeight_append G x (x :: mid) post]
          have h0 : 0 ≤ walkWeight G ((x :: mid) ++ [x]) :=
            walkWeight_nonneg G hWF _
          linarith
        have hlen2 : (pre ++ x :: post).length ≤ n := by
          rw [List.length_append, List.length_cons] at hlen ⊢
          rw [List.length_append, List.length_cons] at hlen
          omega
        obtain ⟨q, hq, hqnd, hqle⟩ :=
          ih (pre ++ x :: post) s t hlen2 ⟨hhead, hlast, hchain⟩
        exact ⟨q, hq, hqnd, le_trans hqle hwq⟩

theorem pathsFrom_sound (G : Graph) :
    ∀ (fuel : Nat) (current target : String) (visited : List String)
      (p : List String), p ∈ pathsFrom G fuel current target visited →
      p.head? = some current ∧ p.getLast? = some target ∧
        List.Chain' (fun u v => v ∈ neighbors G u) p := by
  intro fuel
  induction fuel with
  | zero =>
      intro c t vis p hp
      simp [pathsFrom] at hp
  | succ fuel ih =>
      intro c t vis p hp
      simp only [pathsFrom] at hp
      by_cases hct : c = t
      · rw [if_pos hct, List.mem_singleton] at hp
        subst hp
        refine ⟨rfl, ?_, List.chain'_singleton c⟩
        rw [hct]
        rfl
      · rw [if_neg hct, List.mem_flatMap] at hp
        obtain ⟨n, hn, hp2⟩ := hp
        rw [List.mem_map] at hp2
        obtain ⟨p2, hp2, rfl⟩ := hp2
        obtain ⟨h1, h2, h3⟩ := ih n t (vis ++ [c]) p2 hp2
        have hnmem : n ∈ neighbors G c := (List.mem_filter.mp hn).1
        refine ⟨rfl, ?_, ?_⟩
        · cases p2 with
          | nil => cases h1
          | cons a l => rw [List.getLast?_cons_cons]; exact h2
        · rw [List.chain'_cons']
          refine ⟨?_, h3⟩
          intro y hy
          rw [h1, Option.mem_def, Option.some.injEq] at hy
          rw [← hy]
          exact hnmem

theorem nodup_walk_self {l : List String} {x : String}
    (h1 : l.head? = some x) (h2 : l.getLast? = some x)
    (hnd : l.Nodup) : l = [x] := by
  cases l with
  | nil => cases h1
  | cons a l2 =>
      rw [List.head?_cons, Option.some.injEq] at h1
      subst h1
      cases l2 with
      | nil => rfl
      | cons b l3 =>
          rw [List.getLast?_cons_cons] at h2
          have hx : a ∈ b :: l3 := List.mem_of_getLast?_eq_some h2
          exact absurd hx (List.nodup_cons.mp hnd).1

theorem walk_nodes (G : Graph) (hWF : WF G) :
    ∀ (p : List String) (s : String), p.head? = some s → s ∈ nodeNames G →
      List.Chain' (fun u v => v ∈ neighbors G u) p →
      ∀ x ∈ p, x ∈ nodeNames G := by
  intro p
  induction p with
  | nil =>
      intro s h
      cases h
  | cons a p2 ih =>
      intro s h1 hs hc x hx
      rw [List.head?_cons, Option.some.injEq] at h1
      subst h1
      rcases List.mem_cons.mp hx with rfl | hx2
      · exact hs
      · cases p2 with
        | nil => cases hx2
        | cons b p3 =>
            obtain ⟨hl, hchain⟩ := List.chain'_cons'.mp hc
            have hb : b ∈ neighbors G a := hl b rfl
            exact ih b rfl (neighbors_subset_nodes G hWF a b hb) hchain x hx2

theorem pathsFrom_complete (G : Graph) :
    ∀ (fuel : Nat) (q : List String) (current target : String)
      (visited : List String),
      q.head? = some current → q.getLast? = some target →
      List.Chain' (fun u v => v ∈ neighbors G u) q →
      q.Nodup → (∀ x ∈ q, ¬ x ∈ visited) → q.length ≤ fuel →
      q ∈ pathsFrom G fuel current target visited := by
  intro fuel
  induction fuel with
  | zero =>
      intro q c t vis h1 _ _ _ _ hlen
      rw [Nat.le_zero, List.length_eq_zero] at hlen
      subst hlen
      cases h1
  | succ fuel ih =>
      intro q c t vis h1 h2 hc hnd havoid hlen
      obtain ⟨a, q2, rfl⟩ : ∃ a q2, q = a :: q2 := by
        cases q with
        | nil => cases h1
        | cons a q2 => exact ⟨a, q2, rfl⟩
      rw [List.head?_cons, Option.some.injEq] at h1
      subst h1
      simp only [pathsFrom]
      by_cases hct : a = t
      · rw [if_pos hct, List.mem_singleton]
        refine nodup_walk_self rfl ?_ hnd
        rw [← hct] at h2
        exact h2
      · rw [if_neg hct]
        obtain ⟨b, q3, rfl⟩ : ∃ b q3, q2 = b :: q3 := by
          cases q2 with
          | nil =>
              rw [List.getLast?_singleton, Option.some.injEq] at h2
              exact absurd h2 hct
          | cons b q3 => exact ⟨b, q3, rfl⟩
        rw [List.mem_flatMap]
        refine ⟨b, ?_, ?_⟩
        · rw [List.mem_filter]
          refine ⟨(List.chain'_cons'.mp hc).1 b rfl, ?_⟩
          rw [decide_eq_true_eq]
          intro hmem
          rcases List.mem_append.mp hmem with h | h
          · exact havoid b (List.mem_cons_of_mem _ (List.mem_cons_self _ _)) h
          · rw [List.mem_singleton] at h
            subst h
            exact (List.nodup_cons.mp hnd).1 (List.mem_cons_self _ _)
        · rw [List.mem_map]
          refine ⟨b :: q3, ?_, rfl⟩
          refine ih (b :: q3) b t (vis ++ [a]) rfl ?_ ?_ ?_ ?_ ?_
          · rw [List.getLast?_cons_cons] at h2
            exact h2
          · exact (List.chain'_cons'.mp hc).2
          · exact (List.nodup_cons.mp hnd).2
          · intro x hx hmem
            rcases List.mem_append.mp hmem with h | h
            · exact havoid x (List.mem_cons_of_mem _ hx) h
            · rw [List.mem_singleton] at h
              subst h
              exact (List.nodup_cons.mp hnd).1 hx
          · simp only [List.length_cons] at hlen ⊢
            omega

theorem nxDijkstra_eq_foldl (G : Graph) (s t : String) :
    nxDijkstra G s t =
      (pathsFrom G (nodeNames G).length s t []).foldl (dijkstraStep G) none := by
  unfold nxDijkstra
  congr 1
  funext best p
  cases best with
  | none => rfl
  | some b =>
      obtain ⟨bp, bw⟩ := b
      rfl

theorem foldl_dijkstraStep_isSome (G : Graph) :
    ∀ (l : List (List String)) (b : List String × ℚ),
      ∃ r, l.foldl (dijkstraStep G) (some b) = some r := by
  intro l
  induction l with
  | nil =>
      intro b
      exact ⟨b, rfl⟩
  | cons p l2 ih =>
      intro b
      obtain ⟨bp, bw⟩ := b
      rw [List.foldl_cons]
      by_cases hlt : walkWeight G p < bw
      · have hstep : dijkstraStep G (some (bp, bw)) p =
            some (p, walkWeight G p) := by
          simp only [dijkstraStep]
          rw [if_pos hlt]
        rw [hstep]
        exact ih _
      · have hstep : dijkstraStep G (some (bp, bw)) p = some (bp, bw) := by
          simp only [dijkstraStep]
          rw [if_neg hlt]
        rw [hstep]
        exact ih _

theorem foldl_dijkstraStep_some (G : Graph) :
    ∀ (l : List (List String)) (b : List String × ℚ) (r : List String × ℚ),
      l.foldl (dijkstraStep G) (some b) = some r →
      (r = b ∨ (r.1 ∈ l ∧ r.2 = walkWeight G r.1)) ∧ r.2 ≤ b.2 ∧
        ∀ q ∈ l, r.2 ≤ walkWeight G q := by
  intro l
  induction l with
  | nil =>
      intro b r h
      rw [List.foldl_nil, Option.some.injEq] at h
      subst h
      exact ⟨Or.inl rfl, le_refl _, by intro q hq; cases hq⟩
  | cons p l2 ih =>
      intro b r h
      obtain ⟨bp, bw⟩ := b
      rw [List.foldl_cons] at h
      by_cases hlt : walkWeight G p < bw
      · have hstep : dijkstraStep G (some (bp, bw)) p =
            some (p, walkWeight G p) := by
          simp only [dijkstraStep]
          rw [if_pos hlt]
        rw [hstep] at h
        obtain ⟨h1, h2, h3⟩ := ih (p, walkWeight G p) r h
        refine ⟨?_, ?_, ?_⟩
        · rcases h1 with rfl | ⟨hm, hw⟩
          · exact Or.inr ⟨List.mem_cons_self _ _, rfl⟩
          · exact Or.inr ⟨List.mem_cons_of_mem _ hm, hw⟩
        · exact le_trans h2 (le_of_lt hlt)
        · intro q hq
          rcases List.mem_cons.mp hq with rfl | hq2
          · exact h2
          · exact h3 q hq2
      · have hstep : dijkstraStep G (some (bp, bw)) p = some (bp, bw) := by
          simp only [dijkstraStep]
          rw [if_neg hlt]
        rw [hstep] at h
        obtain ⟨h1, h2, h3⟩ := ih (bp, bw) r h
        refine ⟨?_, h2, ?_⟩
        · rcases h1 with rfl | ⟨hm, hw⟩
          · exact Or.inl rfl
          · exact Or.inr ⟨List.mem_cons_of_mem _ hm, hw⟩
        · intro q hq
          rcases List.mem_cons.mp hq with rfl | hq2
          · exact le_trans h2 (not_lt.mp hlt)
          · exact h3 q hq2

theorem nxDijkstra_none_iff (G : Graph) (s t : String) :
    nxDijkstra G s t = none ↔
      pathsFrom G (nodeNames G).length s t [] = [] := by
  rw [nxDijkstra_eq_foldl]
  constructor
  · intro h
    cases hl : pathsFrom G (nodeNames G).length s t [] with
    | nil => rfl
    | cons p l2 =>
        rw [hl, List.foldl_cons] at h
        have hstep : dijkstraStep G none p = some (p, walkWeight G p) := rfl
        rw [hstep] at h
        obtain ⟨r, hr⟩ := foldl_dijkstraStep_isSome G l2 (p, walkWeight G p)
        rw [hr] at h
        cases h
  · intro h
    rw [h]
    rfl

theorem nxDijkstra_some (G : Graph) (s t : String) (p : List String) (w : ℚ)
    (h : nxDijkstra G s t = some (p, w)) :
    p ∈ pathsFrom G (nodeNames G).length s t [] ∧ w = walkWeight G p ∧
      ∀ q ∈ pathsFrom G (nodeNames G).length s t [], w ≤ walkWeight G q := by
  rw [nxDijkstra_eq_foldl] at h
  cases hl : pathsFrom G (nodeNames G).length s t [] with
  | nil =>
      rw [hl, List.foldl_nil] at h
      cases h
  | cons p0 l2 =>
      rw [hl, List.foldl_cons] at h
      have hstep : dijkstraStep G none p0 = some (p0, walkWeight G p0) := rfl
      rw [hstep] at h
      obtain ⟨h1, h2, h3⟩ := foldl_dijkstraStep_some G l2 (p0, walkWeight G p0)
        (p, w) h
      refine ⟨?_, ?_, ?_⟩
      · rcases h1 with heq | ⟨hm, _⟩
        · rw [Prod.mk.injEq] at heq
          rw [heq.1]
          exact List.mem_cons_self _ _
        · exact List.mem_cons_of_mem _ hm
      · rcases h1 with heq | ⟨_, hw⟩
        · rw [Prod.mk.injEq] at heq
          rw [heq.1, heq.2]
        · exact hw
      · intro q hq
        rcases List.mem_cons.mp hq with rfl | hq2
        · exact h2
        · exact h3 q hq2

theorem walk_to_pathsFrom (G : Graph) (hWF : WF G) (s t : String)
    (hs : s ∈ nodeNames G) (q : List String) (hq : IsWalk G q s t) :
    ∃ q2, q2 ∈ pathsFrom G (nodeNames G).length s t [] ∧
      walkWeight G q2 ≤ walkWeight G q := by
  obtain ⟨q2, hq2, hnd, hle⟩ :=
    exists_nodup_walk G hWF q.length q s t (le_refl _) hq
  refine ⟨q2, ?_, hle⟩
  obtain ⟨h1, h2, h3⟩ := hq2
  have hchain : List.Chain' (fun u v => v ∈ neighbors G u) q2 :=
    h3.imp fun a b hab => (mem_neighbors_iff G a b).mpr hab
  have hsubset : q2 ⊆ nodeNames G := fun x hx =>
    walk_nodes G hWF q2 s h1 hs hchain x hx
  have hlen : q2.length ≤ (nodeNames G).length :=
    (List.subperm_of_subset hnd hsubset).length_le
  exact pathsFrom_complete G _ q2 s t [] h1 h2 hchain hnd (by simp) hlen

theorem pathsFrom_isWalk (G : Graph) (s t : String) (p : List String)
    (hp : p ∈ pathsFrom G (nodeNames G).length s t []) : IsWalk G p s t := by
  obtain ⟨h1, h2, h3⟩ := pathsFrom_sound G _ s t [] p hp
  exact ⟨h1, h2, h3.imp fun a b hab => (mem_neighbors_iff G a b).mp hab⟩

/-- Claim C5, counterexample: a missing source node is `nx.NodeNotFound`,
which the `except nx.NetworkXNoPath` handler does not catch — the call
raises instead of returning the no-path result. -/
theorem c5_counterexample :
    find_optimal_path load_sample_data "Ghost" "Actuator2" = .error () ∧
    ¬ "Ghost" ∈ nodeNames load_sample_data :=
  ⟨by decide!, by decide!⟩

/-- Claim C5 (amended): when the source node exists in the graph,
`find_optimal_path` returns normally; it returns `(None, float('inf'))`
exactly when no walk joins source to target (in particular when the
target is missing or in another component); and when it returns a node
sequence, that sequence is a walk from source to target, the reported
weight is exactly its edge-weight sum, and no walk from source to target
has smaller weight.  (When the source node is missing the call raises
`nx.NodeNotFound` — see the counterexample.) -/
theorem c5_path_finder (G : Graph) (hWF : WF G) (source target : String)
    (hs : source ∈ nodeNames G) :
    (∃ r, find_optimal_path G source target = .ok r) ∧
    (find_optimal_path G source target = .ok (none, .inf) ↔
      ¬ ∃ p, IsWalk G p source target) ∧
    (∀ p w, find_optimal_path G source target = .ok (some p, w) →
      IsWalk G p source target ∧ w = .fin (walkWeight G p) ∧
      ∀ q, IsWalk G q source target → walkWeight G p ≤ walkWeight G q) := by
  have hfo : ∀ res, nxDijkstra G source target = res →
      find_optimal_path G source target =
        (match res with
          | some (p, w) => .ok (some p, .fin w)
          | none => .ok (none, .inf)) := by
    intro res hres
    unfold find_optimal_path
    rw [if_pos hs, hres]
  refine ⟨?_, ?_, ?_⟩
  · cases hnx : nxDijkstra G source target with
    | none => exact ⟨(none, .inf), hfo none hnx⟩
    | some r =>
        obtain ⟨p, w⟩ := r
        exact ⟨(some p, .fin w), hfo (some (p, w)) hnx⟩
  · constructor
    · intro h hex
      obtain ⟨q, hq⟩ := hex
      cases hnx : nxDijkstra G source target with
      | some r =>
          obtain ⟨p, w⟩ := r
          have := hfo (some (p, w)) hnx
          rw [this] at h
          rw [Except.ok.injEq, Prod.mk.injEq] at h
          cases h.1
      | none =>
          have hempty := (nxDijkstra_none_iff G source target).mp hnx
          obtain ⟨q2, hq2, _⟩ := walk_to_pathsFrom G hWF source target hs q hq
          rw [hempty] at hq2
          cases hq2
    · intro hnone
      cases hnx : nxDijkstra G source target with
      | none => exact hfo none hnx
      | some r =>
          obtain ⟨p, w⟩ := r
          obtain ⟨hp, _, _⟩ := nxDijkstra_some G source target p w hnx
          exact absurd ⟨p, pathsFrom_isWalk G source target p hp⟩ hnone
  · intro p w h
    cases hnx : nxDijkstra G source target with
    | none =>
        have := hfo none hnx
        rw [this] at h
        rw [Except.ok.injEq, Prod.mk.injEq] at h
        cases h.1
    | some r =>
        obtain ⟨p2, w2⟩ := r
        have := hfo (some (p2, w2)) hnx
        rw [this] at h
        rw [Except.ok.injEq, Prod.mk.injEq, Option.some.injEq] at h
        obtain ⟨heq, hw⟩ := h
        rw [heq] at hnx
        obtain ⟨hp, hweq, hmin⟩ := nxDijkstra_some G source target p w2 hnx
        refine ⟨pathsFrom_isWalk G source target p hp, ?_, ?_⟩
        · rw [← hw, hweq]
        · intro q hq
          obtain ⟨q2, hq2, hle⟩ :=
            walk_to_pathsFrom G hWF source target hs q hq
          calc walkWeight G p = w2 := hweq.symm
            _ ≤ walkWeight G q2 := hmin q2 hq2
            _ ≤ walkWeight G q := hle

/-- Claim C5, witness: the amended path-finder theorem instantiated on
the sample harness from `ECU`. -/
theorem c5_path_finder_witness :
    (∃ r, find_optimal_path load_sample_data "ECU" "Actuator2" = .ok r) ∧
    (find_optimal_path load_sample_data "ECU" "Actuator2" =
        .ok (none, .inf) ↔
      ¬ ∃ p, IsWalk load_sample_data p "ECU" "Actuator2") ∧
    (∀ p w, find_optimal_path load_sample_data "ECU" "Actuator2" =
        .ok (some p, w) →
      IsWalk load_sample_data p "ECU" "Actuator2" ∧
      w = .fin (walkWeight load_sample_data p) ∧
      ∀ q, IsWalk load_sample_data q "ECU" "Actuator2" →
        walkWeight load_sample_data p ≤ walkWeight load_sample_data q) :=
  c5_path_finder load_sample_data (by decide!) "ECU" "Actuator2" (by decide!)

end Harness
